import Mathlib

/-!
# A verification development for the SDB record store

Shallow embedding of the core of the SDB CLI (a JSONL file-resident record
store): the garbage-collection sweep (`src/commands/gc.ts`), the filter
expression engine (`src/lib/filter.ts`), the record load/write codec and the
lock protocol (`src/lib/fs.ts`), the sort/limit query helpers
(`src/lib/records.ts`), the list command pipeline (`src/commands/list.ts`)
and the update command's locked section (`src/commands/update.ts`).

Modelling conventions:
* JavaScript runtime values that records carry are modelled by the inductive
  `Jv` (JSON values); numbers are modelled as integers, which covers every
  behaviour the theorems below depend on.
* Platform functions that are not part of the repository (`Date.parse`,
  `String.prototype.localeCompare`, `new Date(...).getTime()`) are taken as
  parameters of the embedded functions; theorems quantify over them and
  witnesses instantiate them with concrete functions that agree with the real
  platform at the inputs used.
* Fallible code returns `Option`/`Except`; `throw` of a structured error is
  an `Except.error` carrying the error's structured content.

The file is laid out with all definitions first, then all theorems.
-/

namespace Sdb

/-! ## JavaScript value model -/

/-- JSON values as produced by `JSON.parse` / consumed by `JSON.stringify`.
Numbers are modelled as integers (`Int`); records in this repository carry
strings, booleans, integers, arrays and nested objects. Objects keep their
members in insertion order, as JavaScript objects do. -/
inductive Jv where
  | jnull : Jv
  | jbool (b : Bool) : Jv
  | jnum (n : Int) : Jv
  | jstr (s : String) : Jv
  | jarr (elements : List Jv) : Jv
  | jobj (members : List (String × Jv)) : Jv

/-- First-match association lookup, the behaviour of JavaScript property
access on objects built without duplicate keys. -/
def assocFind (key : String) : List (String × Jv) → Option Jv
  | [] => none
  | (k, v) :: rest => if k = key then some v else assocFind key rest

/-- `record[field]` / `record.field` in JavaScript: property lookup on an
object, `undefined` (`none`) on every non-object value. -/
def Jv.get : Jv → String → Option Jv
  | .jobj ms, key => assocFind key ms
  | _, _ => none

/-- JavaScript truthiness of a possibly-`undefined` value: `undefined`,
`null`, `false`, `0` and the empty string are falsy; arrays and objects are
always truthy. -/
def jsTruthy : Option Jv → Bool
  | none => false
  | some .jnull => false
  | some (.jbool b) => b
  | some (.jnum n) => !(n = 0)
  | some (.jstr s) => !s.isEmpty
  | some (.jarr _) => true
  | some (.jobj _) => true

/-- The ASCII whitespace recognised by JavaScript's `trim` / `\s` (space,
tab, line feed, vertical tab, form feed, carriage return). -/
def jsIsSpace (c : Char) : Bool :=
  c = ' ' || c = '\t' || c = '\n' || c = '\r' || c.toNat = 11 || c.toNat = 12

/-- `String.prototype.trim` on a character list. -/
def jsTrim (l : List Char) : List Char :=
  ((l.dropWhile jsIsSpace).reverse.dropWhile jsIsSpace).reverse

/-! ## Garbage collection (`computeGc`, src/commands/gc.ts lines 26-70)

`dateParse : Jv → Option Int` models `Date.parse(record._deleted)` including
JavaScript's string coercion; `none` is `NaN`. `cutoffTimeMs = none` models
the `--all` mode (`cutoffTimeMs === null` in the source). -/

/-- Per-record statistics of the sweep, as in the `GcStats` interface of
`gc.ts`. The `cutoff` field holds the cutoff in milliseconds (`gc.ts` renders
it as an ISO string for output, which is presentation only). -/
structure GcStats where
  total : Nat
  removed : Nat
  remaining : Nat
  skippedInvalid : Nat
  cutoff : Option Int
deriving DecidableEq

/-- The loop body of `computeGc`: walks the records in order, returning
`(removed, skippedInvalid, remaining)`. Mirrors gc.ts lines 34-58:
`--all` removes unconditionally before any `_deleted` inspection; otherwise a
falsy or unparseable `_deleted` is kept and counted; otherwise remove iff the
parsed timestamp is `≤ cutoff`. -/
def gcLoop (dateParse : Jv → Option Int) (cutoff : Option Int) :
    List Jv → Nat × Nat × List Jv
  | [] => (0, 0, [])
  | record :: rest =>
    let acc := gcLoop dateParse cutoff rest
    match cutoff with
    | none => (acc.1 + 1, acc.2.1, acc.2.2)
    | some c =>
      let dv := record.get "_deleted"
      if !(jsTruthy dv) then (acc.1, acc.2.1 + 1, record :: acc.2.2)
      else
        match dv with
        | none => (acc.1, acc.2.1 + 1, record :: acc.2.2)
        | some v =>
          match dateParse v with
          | none => (acc.1, acc.2.1 + 1, record :: acc.2.2)
          | some ts => if ts ≤ c then (acc.1 + 1, acc.2.1, acc.2.2)
                       else (acc.1, acc.2.1, record :: acc.2.2)

/-- `computeGc(records, cutoffTimeMs)` from gc.ts: the surviving deleted
records plus statistics. `stats.remaining` is computed as
`records.length - removed`, exactly as in the source. -/
def computeGc (dateParse : Jv → Option Int) (records : List Jv)
    (cutoffTimeMs : Option Int) : List Jv × GcStats :=
  let acc := gcLoop dateParse cutoffTimeMs records
  (acc.2.2,
   { total := records.length
     removed := acc.1
     remaining := records.length - acc.1
     skippedInvalid := acc.2.1
     cutoff := cutoffTimeMs })

/-- A record is gc-invalid when its `_deleted` field is falsy (missing, empty
string, `null`, ...) or does not parse as a timestamp. -/
def gcInvalid (dateParse : Jv → Option Int) (record : Jv) : Bool :=
  let dv := record.get "_deleted"
  if !(jsTruthy dv) then true
  else
    match dv with
    | none => true
    | some v => (dateParse v).isNone

/-- Under an age cutoff, a record survives the sweep iff it is gc-invalid or
its parsed `_deleted` timestamp is strictly after the cutoff. -/
def gcKeep (dateParse : Jv → Option Int) (c : Int) (record : Jv) : Bool :=
  gcInvalid dateParse record ||
    (match record.get "_deleted" with
     | some v => match dateParse v with
                 | some ts => decide (c < ts)
                 | none => true
     | none => true)

/-! ## The `JSON.stringify` / `JSON.parse` model

`fs.ts` serialises every record with `JSON.stringify` (compact form) and
parses lines with `JSON.parse`. Both are platform functions; they are
modelled here on `Jv` with numbers restricted to integers: the printer emits
exactly the compact output `JSON.stringify` produces on such values, and the
parser accepts the JSON grammar restricted to integer numeric literals
(a fractional or exponent part makes the parse fail rather than produce a
value outside the model; no claim below depends on non-integer numbers). -/

/-- Lowercase hexadecimal digit, as `JSON.stringify` emits in `\u00xx`. -/
def hexChar (n : Nat) : Char :=
  if n < 10 then Char.ofNat (48 + n) else Char.ofNat (87 + n)

/-- One character as `JSON.stringify` escapes it inside a string literal. -/
def escapeChar (c : Char) : List Char :=
  if c = '"' then ['\\', '"']
  else if c = '\\' then ['\\', '\\']
  else if c = '\n' then ['\\', 'n']
  else if c = '\r' then ['\\', 'r']
  else if c = '\t' then ['\\', 't']
  else if c.toNat = 8 then ['\\', 'b']
  else if c.toNat = 12 then ['\\', 'f']
  else if c.toNat < 32 then
    ['\\', 'u', '0', '0', hexChar (c.toNat / 16), hexChar (c.toNat % 16)]
  else [c]

/-- A JSON string literal: quote, escaped characters, quote. -/
def quoteStr (s : String) : List Char :=
  '"' :: (s.data.flatMap escapeChar ++ ['"'])

/-- The decimal digits of a natural number, most significant first. -/
def natDigits (n : Nat) : List Char :=
  if n < 10 then [Char.ofNat (48 + n)]
  else natDigits (n / 10) ++ [Char.ofNat (48 + n % 10)]
termination_by n
decreasing_by omega

/-- The decimal rendering of an integer, as `JSON.stringify` prints it. -/
def intChars (i : Int) : List Char :=
  (if i < 0 then ['-'] else []) ++ natDigits i.natAbs

mutual

/-- Compact `JSON.stringify` on the integer-numbered value model. -/
def jsonStringify : Jv → List Char
  | .jnull => ['n', 'u', 'l', 'l']
  | .jbool true => ['t', 'r', 'u', 'e']
  | .jbool false => ['f', 'a', 'l', 's', 'e']
  | .jnum n => intChars n
  | .jstr s => quoteStr s
  | .jarr es => '[' :: (stringifyElems es ++ [']'])
  | .jobj ms => '{' :: (stringifyMembers ms ++ ['}'])

/-- Array elements, comma separated, no spaces. -/
def stringifyElems : List Jv → List Char
  | [] => []
  | e :: rest => jsonStringify e ++ stringifyElemsTail rest

/-- The `,`-prefixed continuation of an element list. -/
def stringifyElemsTail : List Jv → List Char
  | [] => []
  | e :: rest => ',' :: (jsonStringify e ++ stringifyElemsTail rest)

/-- Object members `"key":value`, comma separated, no spaces. -/
def stringifyMembers : List (String × Jv) → List Char
  | [] => []
  | (k, v) :: rest => quoteStr k ++ ':' :: (jsonStringify v ++ stringifyMembersTail rest)

/-- The `,`-prefixed continuation of a member list. -/
def stringifyMembersTail : List (String × Jv) → List Char
  | [] => []
  | (k, v) :: rest =>
    ',' :: (quoteStr k ++ ':' :: (jsonStringify v ++ stringifyMembersTail rest))

end

/-- The JSON insignificant whitespace characters (RFC 8259), which is also
what `JSON.parse` skips between tokens. -/
def jsonWs (c : Char) : Bool := c = ' ' || c = '\t' || c = '\n' || c = '\r'

/-- Skip insignificant whitespace. -/
def skipJsonWs (cs : List Char) : List Char := cs.dropWhile jsonWs

/-- The value of a hexadecimal digit character. -/
def hexVal (c : Char) : Option Nat :=
  if 48 ≤ c.toNat ∧ c.toNat ≤ 57 then some (c.toNat - 48)
  else if 97 ≤ c.toNat ∧ c.toNat ≤ 102 then some (c.toNat - 87)
  else if 65 ≤ c.toNat ∧ c.toNat ≤ 70 then some (c.toNat - 55)
  else none

/-- The character a short JSON escape denotes. -/
def shortEscape : Char → Option Char
  | '"' => some '"'
  | '\\' => some '\\'
  | '/' => some '/'
  | 'b' => some (Char.ofNat 8)
  | 'f' => some (Char.ofNat 12)
  | 'n' => some '\n'
  | 'r' => some '\r'
  | 't' => some '\t'
  | _ => none

/-- Parse the body of a JSON string literal (after the opening quote) up to
and including the closing quote, undoing escapes. -/
def parseStringBody : List Char → Option (List Char × List Char)
  | [] => none
  | '"' :: rest => some ([], rest)
  | '\\' :: rest =>
    match rest with
    | 'u' :: a :: b :: c :: d :: rest2 => do
      let va ← hexVal a
      let vb ← hexVal b
      let vc ← hexVal c
      let vd ← hexVal d
      let n := ((va * 16 + vb) * 16 + vc) * 16 + vd
      let p ← parseStringBody rest2
      pure (Char.ofNat n :: p.1, p.2)
    | e :: rest2 => do
      let ch ← shortEscape e
      let p ← parseStringBody rest2
      pure (ch :: p.1, p.2)
    | [] => none
  | c :: rest => do
    let p ← parseStringBody rest
    pure (c :: p.1, p.2)

/-- ASCII decimal digit test. -/
def isDigitC (c : Char) : Bool := 48 ≤ c.toNat && c.toNat ≤ 57

/-- The numeric value of a digit run. -/
def digitsVal (ds : List Char) : Nat :=
  ds.foldl (fun acc c => acc * 10 + (c.toNat - 48)) 0

/-- Parse an unsigned JSON integer literal: digits with no superfluous
leading zero, not followed by a fraction or exponent part (a number outside
the integer model fails the parse). -/
def parseNatTok (cs : List Char) : Option (Nat × List Char) :=
  let ds := cs.takeWhile isDigitC
  let rest := cs.dropWhile isDigitC
  if ds.isEmpty then none
  else if ds.length > 1 ∧ ds.head? = some '0' then none
  else
    match rest with
    | '.' :: _ => none
    | 'e' :: _ => none
    | 'E' :: _ => none
    | _ => some (digitsVal ds, rest)

/-- Parse a JSON integer literal: optional minus sign, then digits. -/
def parseIntTok : List Char → Option (Int × List Char)
  | '-' :: cs1 => (parseNatTok cs1).map (fun p => (-(p.1 : Int), p.2))
  | cs => (parseNatTok cs).map (fun p => ((p.1 : Int), p.2))

mutual

/-- Fuel-indexed JSON value parser (the structural recursion is on the fuel,
so concrete parses compute by kernel reduction). -/
def parseJv : Nat → List Char → Option (Jv × List Char)
  | 0, _ => none
  | fuel + 1, cs =>
    match skipJsonWs cs with
    | 'n' :: 'u' :: 'l' :: 'l' :: r => some (.jnull, r)
    | 't' :: 'r' :: 'u' :: 'e' :: r => some (.jbool true, r)
    | 'f' :: 'a' :: 'l' :: 's' :: 'e' :: r => some (.jbool false, r)
    | '"' :: r => (parseStringBody r).map (fun p => (.jstr (String.mk p.1), p.2))
    | '[' :: r =>
      match skipJsonWs r with
      | ']' :: r2 => some (.jarr [], r2)
      | r2 => (parseItems fuel r2).map (fun p => (.jarr p.1, p.2))
    | '{' :: r =>
      match skipJsonWs r with
      | '}' :: r2 => some (.jobj [], r2)
      | r2 => (parsePairs fuel r2).map (fun p => (.jobj p.1, p.2))
    | cs2 => (parseIntTok cs2).map (fun p => (.jnum p.1, p.2))

/-- Parse one or more comma-separated array elements up to the closing `]`. -/
def parseItems : Nat → List Char → Option (List Jv × List Char)
  | 0, _ => none
  | fuel + 1, cs => do
    let p ← parseJv fuel cs
    match skipJsonWs p.2 with
    | ',' :: r2 => do
      let q ← parseItems fuel r2
      pure (p.1 :: q.1, q.2)
    | ']' :: r2 => pure ([p.1], r2)
    | _ => none

/-- Parse one or more comma-separated object members up to the closing `}`. -/
def parsePairs : Nat → List Char → Option (List (String × Jv) × List Char)
  | 0, _ => none
  | fuel + 1, cs =>
    match skipJsonWs cs with
    | '"' :: r => do
      let ks ← parseStringBody r
      match skipJsonWs ks.2 with
      | ':' :: r2 => do
        let p ← parseJv fuel r2
        match skipJsonWs p.2 with
        | ',' :: r4 => do
          let q ← parsePairs fuel r4
          pure ((String.mk ks.1, p.1) :: q.1, q.2)
        | '}' :: r4 => pure ([(String.mk ks.1, p.1)], r4)
        | _ => none
      | _ => none
    | _ => none

end

/-- A remainder that cannot extend a numeric literal to its left: empty, or
starting with a character that is neither a digit nor `.`, `e`, `E`. Every
position a rendered value is followed by in rendered output (`,`, `]`, `}`,
end of line) satisfies this. -/
def numBoundary : List Char → Bool
  | [] => true
  | c :: _ => !(isDigitC c || c = '.' || c = 'e' || c = 'E')

/-- `JSON.parse` on a whole input: parse one value and require only
whitespace to remain. -/
def jsonParseLine (cs : List Char) : Option Jv :=
  match parseJv (2 * cs.length + 2) cs with
  | some p => if (skipJsonWs p.2).isEmpty then some p.1 else none
  | none => none

/-! ## Structured errors

The taxonomy of `src/lib/errors.ts`, restricted to the payloads the theorems
below inspect. `operationFailed` is specialised to the load path's context
`{ line, content }` (`fs.ts` line 107): the 1-based line number and the
100-character snippet. -/

/-- A structured SDB failure. -/
inductive SdbErr where
  | databaseNotInitialized : SdbErr
  | invalidInput (message : String) : SdbErr
  | invalidFilter : SdbErr
  | operationFailed (operation : String) (line : Nat) (snippet : List Char) : SdbErr
  | lockFailed (meta : Option Jv) : SdbErr
  | recordsNotFound (ids : List String) : SdbErr
  | schemaValidationFailed : SdbErr

/-! ## Record load/write (`src/lib/fs.ts` lines 76-188)

File contents are character lists; the filesystem read itself is modelled by
passing the file's existence flag and content. -/

/-- `content.split('\n')` on a character list: the (possibly empty) segments
between line feeds, including a final empty segment when the content ends
with a line feed. -/
def splitNl : List Char → List (List Char)
  | [] => [[]]
  | c :: rest =>
    if c = '\n' then [] :: splitNl rest
    else
      match splitNl rest with
      | [] => [[c]]
      | l :: ls => (c :: l) :: ls

/-- `lines.join('\n')`. -/
def joinNl : List (List Char) → List Char
  | [] => []
  | [l] => l
  | l :: ls => l ++ '\n' :: joinNl ls

/-- The line loop of `loadRecordsFromFile` (fs.ts lines 95-112): skip blank
lines, parse each other line with `JSON.parse`, and on a parse failure either
drop a partial unterminated final line (deleted log) or fail with the 1-based
line number and a 100-character snippet. -/
def loadLines (operation : String) (allowPartialLastLine endsWithNewline : Bool)
    (lastIndex : Nat) : Nat → List (List Char) → Except SdbErr (List Jv)
  | _, [] => .ok []
  | index, line :: rest =>
    if line.isEmpty || (jsTrim line).isEmpty then
      loadLines operation allowPartialLastLine endsWithNewline lastIndex (index + 1) rest
    else
      match jsonParseLine line with
      | some record =>
        (loadLines operation allowPartialLastLine endsWithNewline lastIndex
          (index + 1) rest).map (fun rs => record :: rs)
      | none =>
        if allowPartialLastLine && index = lastIndex && !endsWithNewline then
          loadLines operation allowPartialLastLine endsWithNewline lastIndex
            (index + 1) rest
        else
          .error (.operationFailed operation (index + 1) (line.take 100))

/-- `loadRecordsFromFile(filePath, operation, allowPartialLastLine)` with the
file's existence and content passed in: absent file or blank content is the
empty list, otherwise the line loop over `content.split('\n')`. -/
def loadRecordsFromContent (fileExists : Bool) (content : List Char)
    (operation : String) (allowPartialLastLine : Bool) : Except SdbErr (List Jv) :=
  if !fileExists then .ok []
  else if (jsTrim content).isEmpty then .ok []
  else
    let lines := splitNl content
    loadLines operation allowPartialLastLine (content.getLast? = some '\n')
      (lines.length - 1) 0 lines

/-- `loadRecords(paths)`: the active log is loaded with
`allowPartialLastLine = false`. -/
def loadRecords (fileExists : Bool) (content : List Char) : Except SdbErr (List Jv) :=
  loadRecordsFromContent fileExists content "loadRecords" false

/-- `loadDeletedRecords(paths)`: the deleted log is loaded with
`allowPartialLastLine = true`. -/
def loadDeletedRecords (fileExists : Bool) (content : List Char) :
    Except SdbErr (List Jv) :=
  loadRecordsFromContent fileExists content "loadDeletedRecords" true

/-- The file content `writeRecordsToFile` produces (fs.ts line 144): each
record as one compact JSON line, newline-joined, with a trailing newline iff
the list is nonempty. The temp-file write plus atomic rename is the I/O
around this content and is not itself part of any content-level claim. -/
def writeRecordsContent (records : List Jv) : List Char :=
  joinNl (records.map (fun r => jsonStringify r)) ++
    (if records.length > 0 then ['\n'] else [])


/-! ## Filter engine (`src/lib/filter.ts`)

`parseFilter` compiles a jq-like expression into a predicate over one record.
The regular expressions of the source are implemented as equivalent
matching functions; the ordered alternation `(==|!=|>|<|>=|<=)` keeps the
source's order (so `>=`/`<=` are shadowed by `>`/`<`, exactly as in the
regex). `Number(...)` coercion of unquoted literals is modelled on the
integer grammar. -/

/-- The regex word character class `\w` = `[A-Za-z0-9_]`. -/
def isWordChar (c : Char) : Bool :=
  ('a' ≤ c && c ≤ 'z') || ('A' ≤ c && c ≤ 'Z') || ('0' ≤ c && c ≤ '9') || c = '_'

/-- `Number(s)` on a trimmed string, integer grammar: the empty string is
`0`; an optional sign followed by digits is the signed value; everything
else is `NaN` (`none`). -/
def jsNumDigits (r : List Char) : Option Nat :=
  if !r.isEmpty && r.all isDigitC then some (digitsVal r) else none

/-- `Number` coercion used by `parseValue` and `parseLimit`. -/
def jsNumber : List Char → Option Int
  | [] => some 0
  | '-' :: r => (jsNumDigits r).map (fun n => -(n : Int))
  | '+' :: r => (jsNumDigits r).map (fun n => (n : Int))
  | r => (jsNumDigits r).map (fun n => (n : Int))

/-- `parseValue(valueStr)` from filter.ts lines 131-153: quoted string,
boolean, null, number, or bare string. -/
def parseValue (valueStr : List Char) : Jv :=
  let trimmed := jsTrim valueStr
  if (trimmed.head? = some '"' ∧ trimmed.getLast? = some '"') ∨
     (trimmed.head? = some '\'' ∧ trimmed.getLast? = some '\'') then
    .jstr (String.mk (trimmed.tail.dropLast))
  else if trimmed = "true".data then .jbool true
  else if trimmed = "false".data then .jbool false
  else if trimmed = "null".data then .jnull
  else
    match jsNumber trimmed with
    | some n => .jnum n
    | none => .jstr (String.mk trimmed)

/-- Primitive strict equality (`===`) between two runtime values: arrays and
objects compare by reference, and a freshly parsed literal is never
reference-equal to a stored value, so those cases are `false`. -/
def jvPrimEq : Jv → Jv → Bool
  | .jnull, .jnull => true
  | .jbool a, .jbool b => a = b
  | .jnum a, .jnum b => a = b
  | .jstr a, .jstr b => a = b
  | _, _ => false

/-- `fieldValue === value` where the field may be `undefined`. -/
def jsStrictEq : Option Jv → Jv → Bool
  | none, _ => false
  | some f, v => jvPrimEq f v

/-- `createComparisonFilter(field, operator, value)` from filter.ts lines
155-180: strict equality for `==`/`!=`, number-only ordering comparisons,
false otherwise. -/
def createComparisonFilter (field : String) (operator : String) (value : Jv) :
    Jv → Bool := fun record =>
  let fieldValue := record.get field
  if operator = "==" then jsStrictEq fieldValue value
  else if operator = "!=" then !(jsStrictEq fieldValue value)
  else if operator = ">" then
    match fieldValue, value with
    | some (.jnum a), .jnum b => decide (b < a)
    | _, _ => false
  else if operator = "<" then
    match fieldValue, value with
    | some (.jnum a), .jnum b => decide (a < b)
    | _, _ => false
  else if operator = ">=" then
    match fieldValue, value with
    | some (.jnum a), .jnum b => decide (b ≤ a)
    | _, _ => false
  else if operator = "<=" then
    match fieldValue, value with
    | some (.jnum a), .jnum b => decide (a ≤ b)
    | _, _ => false
  else false

/-- `arr.includes(value)` for a string `value` captured by the `contains`
regex (SameValueZero: only string elements can match). -/
def jsIncludes (xs : List Jv) (s : String) : Bool :=
  xs.any (fun x => match x with
    | .jstr t => t = s
    | _ => false)

/-- `/^select\((.*)\)$/`: strip the wrapper, greedily to the final `)`. -/
def matchSelect (l : List Char) : Option (List Char) :=
  if l.take 7 = "select(".data ∧ l.getLast? = some ')' then
    some ((l.drop 7).dropLast)
  else none

/-- `^\.(\w+)`: a dot followed by a maximal nonempty word-character run;
returns the field name and the remainder. -/
def matchFieldPrefix : List Char → Option (String × List Char)
  | '.' :: r =>
    let w := r.takeWhile isWordChar
    if w.isEmpty then none else some (String.mk w, r.dropWhile isWordChar)
  | _ => none

/-- `/^\.(\w+)\s*\|\s*contains\(["'](.+?)["']\)$/`: the lazy group plus the
end anchor force the closing quote to the second-to-last position, so the
content is everything between the opening quote and that position. -/
def matchContains (l : List Char) : Option (String × String) :=
  (matchFieldPrefix l).bind (fun p =>
    match p.2.dropWhile jsIsSpace with
    | '|' :: r2 =>
      let r3 := r2.dropWhile jsIsSpace
      if r3.take 9 = "contains(".data then
        match r3.drop 9 with
        | q :: rest =>
          if (q = '"' ∨ q = '\'') ∧ rest.length ≥ 3 ∧
             rest.getLast? = some ')' ∧
             (rest.dropLast.getLast? = some '"' ∨
              rest.dropLast.getLast? = some '\'') then
            some (p.1, String.mk (rest.dropLast.dropLast))
          else none
        | [] => none
      else none
    | _ => none)

/-- `/^\.(\w+)\s*(==|!=|>|<|>=|<=)\s*(.+)$/`: field, whitespace, then the
first alternative that matches and leaves a nonempty remainder (regex
backtracking), with the remainder as the raw value string (`parseValue`
trims it, so dropping the `\s*` before the captured group is behaviourally
identical). -/
def matchComparison (l : List Char) : Option (String × String × List Char) :=
  (matchFieldPrefix l).bind (fun p =>
    let r1 := p.2.dropWhile jsIsSpace
    if r1.take 2 = "==".data ∧ !(r1.drop 2).isEmpty then
      some (p.1, "==", r1.drop 2)
    else if r1.take 2 = "!=".data ∧ !(r1.drop 2).isEmpty then
      some (p.1, "!=", r1.drop 2)
    else if r1.take 1 = ">".data ∧ !(r1.drop 1).isEmpty then
      some (p.1, ">", r1.drop 1)
    else if r1.take 1 = "<".data ∧ !(r1.drop 1).isEmpty then
      some (p.1, "<", r1.drop 1)
    else if r1.take 2 = ">=".data ∧ !(r1.drop 2).isEmpty then
      some (p.1, ">=", r1.drop 2)
    else if r1.take 2 = "<=".data ∧ !(r1.drop 2).isEmpty then
      some (p.1, "<=", r1.drop 2)
    else none)

/-- `/^\.(\w+)$/`: field reference covering the whole string. -/
def matchExists (l : List Char) : Option String :=
  (matchFieldPrefix l).bind (fun p => if p.2.isEmpty then some p.1 else none)

/-- `/^not\s+\.(\w+)$/`. -/
def matchNotExists (l : List Char) : Option String :=
  if l.take 3 = "not".data then
    let r := l.drop 3
    let r1 := r.dropWhile jsIsSpace
    if r1.length < r.length then
      (matchFieldPrefix r1).bind (fun p => if p.2.isEmpty then some p.1 else none)
    else none
  else none

/-- The loop of `splitOnOperator` (filter.ts lines 90-129): walks the
characters tracking string quoting (with backslash escape on the previous
character), parenthesis depth outside strings, and splits on the operator at
top level, skipping the operator's characters. The fuel is structural; one
character (at least) is consumed per step, so `length + 1` fuel always
suffices. -/
def splitOnOperatorGo (op : List Char) :
    Nat → List Char → Option Char → List Char → Int → Bool → Char →
    List (List Char) → List (List Char)
  | 0, _, _, cur, _, _, _, parts => parts ++ [jsTrim cur]
  | _ + 1, [], _, cur, _, _, _, parts => parts ++ [jsTrim cur]
  | fuel + 1, c :: rest, prev, cur, depth, inString, stringChar, parts =>
    let isQuote := (c = '"' ∨ c = '\'') ∧ prev ≠ some '\\'
    let inString2 :=
      if isQuote then
        if !inString then true
        else if c = stringChar then false else inString
      else inString
    let stringChar2 :=
      if isQuote ∧ !inString then c else stringChar
    let depth2 := if !inString2 ∧ c = '(' then depth + 1 else depth
    let depth3 := if !inString2 ∧ c = ')' then depth2 - 1 else depth2
    if !inString2 ∧ depth3 = 0 ∧ op.isPrefixOf (c :: rest) then
      splitOnOperatorGo op fuel ((c :: rest).drop op.length)
        (some (op.getLastD c)) [] depth3 inString2 stringChar2
        (parts ++ [jsTrim cur])
    else
      splitOnOperatorGo op fuel rest (some c) (cur ++ [c]) depth3 inString2
        stringChar2 parts

/-- `splitOnOperator(str, operator)`: run the loop and drop empty parts. -/
def splitOnOperator (str : List Char) (operator : List Char) : List (List Char) :=
  (splitOnOperatorGo operator (str.length + 1) str none [] 0 false ' ' []).filter
    (fun p => !p.isEmpty)

/-- `parseCondition(condition)` (filter.ts lines 38-88): split on ` and `
first (so `and` has the lowest precedence), then on ` or `, then try the
term matchers in source order; unrecognized syntax is the invalid-filter
error (`none`). The fuel is structural; every recursive call is on a strict
substring, so `length + 1` fuel suffices for every input reachable from
`parseFilter`. -/
def parseCondition : Nat → List Char → Option (Jv → Bool)
  | 0, _ => none
  | fuel + 1, condition =>
    let trimmed := jsTrim condition
    let andParts := splitOnOperator trimmed " and ".data
    if 2 ≤ andParts.length then
      (andParts.mapM (parseCondition fuel)).map
        (fun filters => fun record => filters.all (fun f => f record))
    else
      let orParts := splitOnOperator trimmed " or ".data
      if 2 ≤ orParts.length then
        (orParts.mapM (parseCondition fuel)).map
          (fun filters => fun record => filters.any (fun f => f record))
      else
        match matchContains trimmed with
        | some fv => some (fun record =>
            match record.get fv.1 with
            | some (.jarr arr) => jsIncludes arr fv.2
            | _ => false)
        | none =>
          match matchComparison trimmed with
          | some fov =>
            some (createComparisonFilter fov.1 fov.2.1 (parseValue fov.2.2))
          | none =>
            match matchExists trimmed with
            | some field => some (fun record =>
                match record.get field with
                | none => false
                | some .jnull => false
                | some _ => true)
            | none =>
              match matchNotExists trimmed with
              | some field => some (fun record =>
                  match record.get field with
                  | none => true
                  | some .jnull => true
                  | some _ => false)
              | none => none

/-- `parseFilter(expression)` (filter.ts lines 20-36): empty expression
matches everything; a `select(...)` wrapper is stripped; otherwise the
condition parser runs directly. `none` models the invalid-filter error. -/
def parseFilter (expression : String) : Option (Jv → Bool) :=
  let trimmed := jsTrim expression.data
  if trimmed.isEmpty then some (fun _ => true)
  else
    match matchSelect trimmed with
    | some inner => parseCondition (trimmed.length + 1) inner
    | none => parseCondition (trimmed.length + 1) trimmed

/-- The compiled filter applied to one record (`parseFilter(e)(r)`), with
`none` when the expression does not parse. -/
def applyFilter (expression : String) (record : Jv) : Option Bool :=
  (parseFilter expression).map (fun f => f record)

/-- `filterRecords(records, expression)` from filter.ts lines 185-188. -/
def filterRecords (records : List Jv) (expression : String) :
    Option (List Jv) :=
  (parseFilter expression).map (fun f => records.filter f)


/-! ## Sorting, limiting and time filtering (`src/lib/records.ts`)

`Array.prototype.sort` with a comparator is a stable comparison sort; it is
modelled as a stable insertion sort over the `(record, index)` pairs that
`sortRecords` builds (the comparator includes the original-index tiebreak,
so for comparator-consistent inputs the stable sorted permutation is unique,
and every theorem below either holds for any stable comparison sort or
concerns two-element lists, on which all comparison sorts agree).
`localeCompare` is a parameter `localeCompare : Jv → Jv → Int`, modelling
`String(a).localeCompare(String(b))`; `dateParse : Jv → Option Int` models
`Date.parse(String(a))` as in the gc section. -/

/-- The sort order after validation. -/
inductive SortOrder where
  | asc : SortOrder
  | desc : SortOrder
deriving DecidableEq

/-- `normalizeSortField(input)` from records.ts lines 10-21. -/
def normalizeSortField : Option String → Option String
  | none => none
  | some input =>
    let trimmed := String.mk (jsTrim input.data)
    if trimmed = "" then none
    else if trimmed = "created" then some "_created"
    else if trimmed = "updated" then some "_updated"
    else if trimmed = "deleted" then some "_deleted"
    else if trimmed = "id" then some "_id"
    else some trimmed

/-- `normalizeSortOrder(input)` from records.ts lines 23-28: missing input
defaults to ascending; anything but `asc`/`desc` (after trim and lowercase)
is the invalid-input error. -/
def normalizeSortOrder : Option String → Except SdbErr SortOrder
  | none => .ok .asc
  | some input =>
    let normalized := String.mk ((jsTrim input.data).map Char.toLower)
    if normalized = "asc" then .ok .asc
    else if normalized = "desc" then .ok .desc
    else .error (.invalidInput "Invalid order")

/-- `parseLimit(input)` from records.ts lines 30-37: `Number(input)` must be
a non-negative integer, else the invalid-input error. -/
def parseLimit : Option String → Except SdbErr (Option Nat)
  | none => .ok none
  | some input =>
    match jsNumber (jsTrim input.data) with
    | none => .error (.invalidInput "Invalid limit")
    | some v =>
      if v < 0 then .error (.invalidInput "Invalid limit") else .ok (some v.toNat)

/-- `applyLimit(records, limit)` from records.ts lines 73-76. -/
def applyLimit (records : List Jv) : Option Nat → List Jv
  | none => records
  | some n => records.take n

/-- `a === undefined || a === null`. -/
def jsNullish : Option Jv → Bool
  | none => true
  | some .jnull => true
  | some _ => false

/-- The non-timestamp tail of `compareValues` (records.ts lines 51-54):
numbers numerically, booleans false-before-true, everything else by
`localeCompare` of the string coercions. -/
def compareValuesFallback (localeCompare : Jv → Jv → Int) : Jv → Jv → Int
  | .jnum x, .jnum y => x - y
  | .jbool x, .jbool y => if x = y then 0 else if x then 1 else -1
  | av, bv => localeCompare av bv

/-- `compareValues(a, b, field)` from records.ts lines 39-55: nullish values
sort after everything; on the timestamp fields both sides are compared as
parsed timestamps when both parse; otherwise the generic fallback runs. -/
def compareValues (dateParse : Jv → Option Int) (localeCompare : Jv → Jv → Int)
    (field : String) (a b : Option Jv) : Int :=
  if jsNullish a then (if jsNullish b then 0 else 1)
  else if jsNullish b then -1
  else
    match a, b with
    | some av, some bv =>
      if field = "_created" ∨ field = "_updated" ∨ field = "_deleted" then
        match dateParse av, dateParse bv with
        | some ta, some tb => ta - tb
        | _, _ => compareValuesFallback localeCompare av bv
      else compareValuesFallback localeCompare av bv
    | _, _ => 0

/-- The records paired with their original indices
(`records.map((record, index) => ...)`). -/
def withIdx : List Jv → Nat → List (Jv × Nat)
  | [], _ => []
  | r :: rs, i => (r, i) :: withIdx rs (i + 1)

/-- Insert into a sorted-so-far list: the new element goes before the first
element it compares strictly below, which is what makes the sort stable. -/
def insertSorted (cmp : (Jv × Nat) → (Jv × Nat) → Int) (x : Jv × Nat) :
    List (Jv × Nat) → List (Jv × Nat)
  | [] => [x]
  | y :: ys => if cmp x y < 0 then x :: y :: ys else y :: insertSorted cmp x ys

/-- Stable insertion sort by a comparator. -/
def sortByCmp (cmp : (Jv × Nat) → (Jv × Nat) → Int) :
    List (Jv × Nat) → List (Jv × Nat)
  | [] => []
  | x :: xs => insertSorted cmp x (sortByCmp cmp xs)

/-- The comparator of `sortRecords` (records.ts lines 65-69): field
comparison scaled by direction, with the original-index difference as the
tiebreak. -/
def sortComparator (dateParse : Jv → Option Int) (localeCompare : Jv → Jv → Int)
    (field : String) (ord : SortOrder) (x y : Jv × Nat) : Int :=
  let dir : Int := if ord = .desc then -1 else 1
  let cmp := compareValues dateParse localeCompare field
    (x.1.get field) (y.1.get field)
  if cmp ≠ 0 then cmp * dir else (x.2 : Int) - (y.2 : Int)

/-- `sortRecords` on the indexed pairs, before the indices are dropped. -/
def sortRecordsIdx (dateParse : Jv → Option Int) (localeCompare : Jv → Jv → Int)
    (records : List Jv) (field : String) (ord : SortOrder) : List (Jv × Nat) :=
  sortByCmp (sortComparator dateParse localeCompare field ord)
    (withIdx records 0)

/-- `sortRecords(records, field, order)` from records.ts lines 57-71. -/
def sortRecords (dateParse : Jv → Option Int) (localeCompare : Jv → Jv → Int)
    (records : List Jv) (field : String) (ord : SortOrder) : List Jv :=
  (sortRecordsIdx dateParse localeCompare records field ord).map Prod.fst

/-- `filterRecordsByTime(records, field, withinMs, nowMs)` from records.ts
lines 78-92: keep records whose truthy field value parses to a timestamp at
or after `nowMs - withinMs`. -/
def filterRecordsByTime (dateParse : Jv → Option Int) (records : List Jv)
    (field : String) (withinMs nowMs : Int) : List Jv :=
  let cutoff := nowMs - withinMs
  records.filter (fun record =>
    let value := record.get field
    if !(jsTruthy value) then false
    else
      match value with
      | some v =>
        match dateParse v with
        | none => false
        | some ts => decide (cutoff ≤ ts)
      | none => false)

/-- Lexicographic code-unit comparison of two character lists, the shape
`localeCompare` takes on plain ASCII strings. Used to instantiate the
`localeCompare` parameter in concrete counterexamples. -/
def lexCmpChars : List Char → List Char → Int
  | [], [] => 0
  | [], _ :: _ => -1
  | _ :: _, [] => 1
  | a :: as, b :: bs =>
    if a.toNat < b.toNat then -1
    else if b.toNat < a.toNat then 1
    else lexCmpChars as bs

/-! ## Durations (`src/lib/time.ts`) -/

/-- The millisecond multiplier for a (lowercased) duration unit letter. -/
def durationMultiplier (c : Char) : Option Int :=
  if c = 's' then some 1000
  else if c = 'm' then some 60000
  else if c = 'h' then some 3600000
  else if c = 'd' then some 86400000
  else if c = 'w' then some 604800000
  else none

/-- `parseDurationMs(input)` from time.ts: the trimmed input must match
`/^(\d+)([smhdw])$/i`; the value times the unit multiplier, else the
invalid-input error. -/
def parseDurationMs (input : String) : Except SdbErr Int :=
  let trimmed := jsTrim input.data
  match trimmed.getLast? with
  | none => .error (.invalidInput "Invalid duration")
  | some unit =>
    let ds := trimmed.dropLast
    if !ds.isEmpty && ds.all isDigitC then
      match durationMultiplier unit.toLower with
      | some mult => .ok ((digitsVal ds : Int) * mult)
      | none => .error (.invalidInput "Invalid duration")
    else .error (.invalidInput "Invalid duration")


/-! ## The list command pipeline (`src/commands/list.ts`)

The filesystem is modelled by the files' existence flags and contents; each
log read is recorded as an event, in order, so that claims about when I/O
happens relative to validation errors are statable. Output formatting
(lines 77-126) is presentation and out of scope. -/

/-- A log file read performed by the pipeline. -/
inductive ReadEvent where
  | readActive : ReadEvent
  | readDeleted : ReadEvent
deriving DecidableEq

/-- The on-disk state the list command sees. -/
structure ListEnv where
  schemaExists : Bool
  activeExists : Bool
  activeContent : List Char
  deletedExists : Bool
  deletedContent : List Char

/-- The `ListOptions` fields the pipeline consumes. -/
structure ListOptions where
  filter : Option String
  includeDeleted : Bool
  sort : Option String
  order : Option String
  limit : Option String
  createdWithin : Option String
  updatedWithin : Option String
  deletedWithin : Option String

/-- `options.x ? parseDurationMs(options.x) : undefined` — the option is
parsed only when truthy (a present empty string is falsy). -/
def optDuration : Option String → Except SdbErr (Option Int)
  | none => .ok none
  | some s => if s.isEmpty then .ok none else (parseDurationMs s).map some

/-- `if (options.filter) records = filterRecords(records, options.filter)`,
with the invalid-filter throw as an error. -/
def applyContentFilter (records : List Jv) : Option String →
    Except SdbErr (List Jv)
  | none => .ok records
  | some f =>
    if f.isEmpty then .ok records
    else
      match filterRecords records f with
      | some l => .ok l
      | none => .error .invalidFilter

/-- One optional time-window filter application. -/
def applyTimeOpt (dateParse : Jv → Option Int) (records : List Jv)
    (field : String) (msOpt : Option Int) (nowMs : Int) : List Jv :=
  match msOpt with
  | none => records
  | some ms => filterRecordsByTime dateParse records field ms nowMs

/-- `SameValueZero` on possibly-undefined id values, the equality a `Set`
uses in `activeIds.has(r._id)` (arrays/objects compare by reference; a
stored id of that shape never equals another object's id in this model). -/
def jvSameValueZero : Option Jv → Option Jv → Bool
  | none, none => true
  | some a, some b => jvPrimEq a b
  | _, _ => false

/-- `listCommand` (list.ts lines 17-75) up to its output formatting: the
pipeline over the given filesystem state, returning the events of log reads
in order together with the result or the first structured error. -/
def listQueryModel (dateParse : Jv → Option Int)
    (localeCompare : Jv → Jv → Int) (nowMs : Int) (env : ListEnv)
    (opts : ListOptions) : List ReadEvent × Except SdbErr (List Jv) :=
  if !env.schemaExists then ([], .error .databaseNotInitialized)
  else
    match loadRecords env.activeExists env.activeContent with
    | .error e => ([.readActive], .error e)
    | .ok allActiveRecords =>
      let legacyDeleted := allActiveRecords.filter
        (fun r => jsTruthy (r.get "_deleted"))
      let records0 := allActiveRecords.filter
        (fun r => !(jsTruthy (r.get "_deleted")))
      match optDuration opts.createdWithin with
      | .error e => ([.readActive], .error e)
      | .ok createdWithinMs =>
      match optDuration opts.updatedWithin with
      | .error e => ([.readActive], .error e)
      | .ok updatedWithinMs =>
      match optDuration opts.deletedWithin with
      | .error e => ([.readActive], .error e)
      | .ok deletedWithinMs =>
      match applyContentFilter records0 opts.filter with
      | .error e => ([.readActive], .error e)
      | .ok records1 =>
      let records2 :=
        applyTimeOpt dateParse records1 "_created" createdWithinMs nowMs
      let records3 :=
        applyTimeOpt dateParse records2 "_updated" updatedWithinMs nowMs
      let step : List ReadEvent × Except SdbErr (List Jv) :=
        if opts.includeDeleted then
          match loadDeletedRecords env.deletedExists env.deletedContent with
          | .error e => ([.readActive, .readDeleted], .error e)
          | .ok deletedRecords0 =>
            let activeIds := records3.map (fun r => r.get "_id")
            let uniqueDeleted := deletedRecords0.filter
              (fun r => !(activeIds.any
                (fun i => jvSameValueZero i (r.get "_id"))))
            let legacyUnique := legacyDeleted.filter
              (fun r => !(activeIds.any
                (fun i => jvSameValueZero i (r.get "_id"))))
            match applyContentFilter (uniqueDeleted ++ legacyUnique)
                opts.filter with
            | .error e => ([.readActive, .readDeleted], .error e)
            | .ok deletedRecords2 =>
              let d3 := applyTimeOpt dateParse deletedRecords2 "_created"
                createdWithinMs nowMs
              let d4 := applyTimeOpt dateParse d3 "_updated"
                updatedWithinMs nowMs
              let d5 := applyTimeOpt dateParse d4 "_deleted"
                deletedWithinMs nowMs
              ([.readActive, .readDeleted], .ok (records3 ++ d5))
        else ([.readActive], .ok records3)
      match step with
      | (events, .error e) => (events, .error e)
      | (events, .ok records4) =>
        let sortField := normalizeSortField opts.sort
        match normalizeSortOrder opts.order with
        | .error e => (events, .error e)
        | .ok sortOrder =>
          let records5 :=
            match sortField with
            | some f => sortRecords dateParse localeCompare records4 f sortOrder
            | none => records4
          match parseLimit opts.limit with
          | .error e => (events, .error e)
          | .ok limit => (events, .ok (applyLimit records5 limit))

/-! ## Lock acquisition (`src/lib/fs.ts` `acquireLock`, lines 193-263)

One iteration of the wait loop, as a pure function of what the iteration
observes: whether the lock file exists, its bytes, the clock, and how long
this call has already waited. The timestamp parse `new
Date(lock.timestamp).getTime()` is a platform function passed in as
`dateTs` (returning `none` for NaN). -/

/-- What one iteration of the `acquireLock` loop does next. -/
inductive LockAction where
  | acquired : LockAction
  | throwLockFailed : Option Jv → LockAction
  | unlinkRetryNow : LockAction
  | unlinkRetrySleep : LockAction
  | retrySleep : LockAction
  | attemptCreate : LockAction

/-- One iteration of `acquireLock`'s `while (true)` when the lock file
exists (fs.ts lines 201-237), plus the fall-through to the exclusive
create when it does not.  `JSON.parse` failing — and the `TypeError` from
reading `.timestamp` off a parsed `null` — land in the `catch`, which
unlinks, checks the wait budget and SLEEPS before continuing; a parsed
lock whose age exceeds `lockTimeoutMs` is unlinked and the loop continues
with no sleep. -/
def acquireLockStep (dateTs : Option Jv → Option Int) (nowMs : Int)
    (waitedMs : Int) (maxWaitMs : Int) (lockTimeoutMs : Int)
    (lockExists : Bool) (lockContent : List Char) : LockAction :=
  if lockExists then
    match jsonParseLine lockContent with
    | none =>
      if waitedMs ≥ maxWaitMs then .throwLockFailed none
      else .unlinkRetrySleep
    | some .jnull =>
      if waitedMs ≥ maxWaitMs then .throwLockFailed none
      else .unlinkRetrySleep
    | some lock =>
      match dateTs (lock.get "timestamp") with
      | some t =>
        if nowMs - t > lockTimeoutMs then .unlinkRetryNow
        else if waitedMs ≥ maxWaitMs then .throwLockFailed (some lock)
        else .retrySleep
      | none =>
        if waitedMs ≥ maxWaitMs then .throwLockFailed (some lock)
        else .retrySleep
  else .attemptCreate

/-! ## The update command's locked section (`src/commands/update.ts` 129-190)

The body of the `withLock` callback as a pure function of what it reads:
the deleted log, the active log, the target ids, the parsed field updates,
the schema validator and the `_updated` timestamp string.  The returned
list is exactly what `writeRecords` receives. -/

/-- `v === id` / `Set.has(id)` / `includes(id)` for a possibly-undefined
stored `_id` against an id string from the command line: all three agree
on a string right-hand side. -/
def idEq : Option Jv → String → Bool
  | some (.jstr s), id => s = id
  | _, _ => false

/-- The own enumerable properties a spread `\x7b...v\x7d` copies. -/
def Jv.members : Jv → List (String × Jv)
  | .jobj ms => ms
  | _ => []

/-- Object-literal assignment of one key: an existing key keeps its
position and takes the new value, a new key is appended. -/
def upsert (k : String) (v : Jv) : List (String × Jv) → List (String × Jv)
  | [] => [(k, v)]
  | (k', v') :: rest =>
    if k' = k then (k', v) :: rest else (k', v') :: upsert k v rest

/-- `\x7b...base, ...adds\x7d`: each property of `adds` assigned in order. -/
def spreadAll (base : List (String × Jv)) (adds : List (String × Jv)) :
    List (String × Jv) :=
  adds.foldl (fun acc p => upsert p.1 p.2 acc) base

/-- `k: v` where `v` may be `undefined`: assigning `undefined` leaves a key
that `JSON.stringify` then omits, which on the serialized record is the
same as removing it. -/
def setOrDrop (k : String) : Option Jv → List (String × Jv) →
    List (String × Jv)
  | some v, ms => upsert k v ms
  | none, ms => ms.filter (fun p => !(p.1 = k))

/-- `\x7b...existingRecord, ...updates, _id: existingRecord._id, _created:
existingRecord._created, _updated: now\x7d` (update.ts lines 153-159). -/
def buildNextRecord (existing : Jv) (updates : List (String × Jv))
    (now : String) : Jv :=
  .jobj (upsert "_updated" (.jstr now)
    (setOrDrop "_created" (existing.get "_created")
      (setOrDrop "_id" (existing.get "_id")
        (spreadAll (Jv.members existing) updates))))

/-- The `for (const id of idList)` loop (update.ts lines 141-177),
accumulating `deletedList`, `missingIds` and `updatedMap` and throwing on
a schema validation failure. -/
def updateLoop (validate : List (String × Jv) → Bool) (now : String)
    (deletedIds legacyDeleted : List (Option Jv)) (currentRecords : List Jv)
    (updates : List (String × Jv)) :
    List String → List String × List String × List (String × Jv) →
    Except SdbErr (List String × List String × List (String × Jv))
  | [], st => .ok st
  | id :: rest, (dl, ml, um) =>
    if deletedIds.any (fun v => idEq v id) ||
        legacyDeleted.any (fun v => idEq v id) then
      updateLoop validate now deletedIds legacyDeleted currentRecords updates
        rest (dl ++ [id], ml, um)
    else
      match currentRecords.find? (fun r => idEq (r.get "_id") id) with
      | none =>
        updateLoop validate now deletedIds legacyDeleted currentRecords
          updates rest (dl, ml ++ [id], um)
      | some existing =>
        if validate ((Jv.members (buildNextRecord existing updates now)).filter
            (fun p => !(p.1.startsWith "_"))) then
          updateLoop validate now deletedIds legacyDeleted currentRecords
            updates rest (dl, ml, upsert id (buildNextRecord existing updates now) um)
        else .error .schemaValidationFailed

/-- `updatedMap.get(record._id) || record`: a `Map` keyed by the id
strings, looked up with the record's possibly-undefined `_id`. -/
def replaceById (um : List (String × Jv)) (r : Jv) : Jv :=
  match r.get "_id" with
  | some (.jstr s) => (assocFind s um).getD r
  | _ => r

/-- The locked section of `updateCommand` (update.ts lines 129-190): on
success the returned list is the `nextRecords` handed to `writeRecords`. -/
def updateLocked (validate : List (String × Jv) → Bool) (now : String)
    (deletedRecords allRecords : List Jv) (idList : List String)
    (updates : List (String × Jv)) : Except SdbErr (List Jv) :=
  let deletedIds := deletedRecords.map (fun r => r.get "_id")
  let legacyDeleted := (allRecords.filter
    (fun r => jsTruthy (r.get "_deleted"))).map (fun r => r.get "_id")
  let currentRecords := allRecords.filter
    (fun r => !(jsTruthy (r.get "_deleted")))
  match updateLoop validate now deletedIds legacyDeleted currentRecords
      updates idList ([], [], []) with
  | .error e => .error e
  | .ok (dl, ml, um) =>
    if dl.length > 0 then
      .error (.invalidInput "Cannot update deleted record(s)")
    else if ml.length > 0 then .error (.recordsNotFound ml)
    else .ok (currentRecords.map (replaceById um))

/-! ## Concurrent lock acquisition (`src/lib/fs.ts` lines 239-262)

Two processes interleave the acquisition loop over a shared lock file.
Each iteration first checks `existsSync` and, seeing no lock, attempts the
exclusive `writeFileSync(..., \x7b flag: 'wx' \x7d)` create, which the
filesystem makes atomic: it succeeds only if the file still does not
exist, and otherwise fails with `EEXIST`, sending the process back to the
wait loop.  The model covers this create race between two fresh
acquisitions; stale- or corrupt-lock reclamation deletes are a separate
code path (lines 201-237) and are not part of this claim's scenario. -/

/-- Where a process is in its acquisition loop. -/
inductive ProcPc where
  | start : ProcPc
  | creating : ProcPc
  | waiting : ProcPc
  | holding : ProcPc
deriving DecidableEq

/-- State of the shared lock file and the two processes. -/
structure LockSys where
  lockExists : Bool
  pcA : ProcPc
  pcB : ProcPc
deriving DecidableEq

/-- What one loop iteration of one process does, given the lock file state:
`start` runs the `existsSync` check, `creating` runs the atomic `wx`
create (succeeding exactly when the file is still absent, `EEXIST`
otherwise), `waiting` sleeps and loops back, `holding` keeps the lock. -/
def procStep (lockExists : Bool) : ProcPc → Bool × ProcPc
  | .start => if lockExists then (lockExists, .waiting) else (lockExists, .creating)
  | .creating => if lockExists then (lockExists, .waiting) else (true, .holding)
  | .waiting => (lockExists, .start)
  | .holding => (lockExists, .holding)

/-- Interleaving: either process takes its next step. -/
inductive sysStep : LockSys → LockSys → Prop where
  | stepA (s : LockSys) : sysStep s
      ⟨(procStep s.lockExists s.pcA).1, (procStep s.lockExists s.pcA).2, s.pcB⟩
  | stepB (s : LockSys) : sysStep s
      ⟨(procStep s.lockExists s.pcB).1, s.pcA, (procStep s.lockExists s.pcB).2⟩

/-- Both processes start their acquisition on an unlocked database. -/
def lockInit : LockSys := ⟨false, .start, .start⟩

/-- The inductive invariant: a holder implies the lock file exists, and at
most one process holds. -/
def lockInv (s : LockSys) : Prop :=
  (s.pcA = .holding → s.lockExists = true) ∧
  (s.pcB = .holding → s.lockExists = true) ∧
  ¬(s.pcA = .holding ∧ s.pcB = .holding)

instance (s : LockSys) : Decidable (lockInv s) := by
  unfold lockInv
  infer_instance

/-! # Theorems -/

/-! ## Garbage collection -/

theorem gcLoop_all (dateParse : Jv → Option Int) :
    ∀ records, gcLoop dateParse none records = (records.length, 0, []) := by
  intro records
  induction records with
  | nil => rfl
  | cons r rs ih => simp [gcLoop, ih]

theorem gcLoop_age (dateParse : Jv → Option Int) (c : Int) :
    ∀ records, gcLoop dateParse (some c) records =
      ((records.filter (fun r => !gcKeep dateParse c r)).length,
       (records.filter (fun r => gcInvalid dateParse r)).length,
       records.filter (fun r => gcKeep dateParse c r)) := by
  intro records
  induction records with
  | nil => rfl
  | cons r rs ih =>
    simp only [gcLoop, ih, List.filter_cons]
    rcases hdv : r.get "_deleted" with _ | v
    · simp [gcInvalid, gcKeep, hdv, jsTruthy]
    · by_cases htr : jsTruthy (some v) = true
      · rcases hdp : dateParse v with _ | ts
        · simp [gcInvalid, gcKeep, hdv, hdp, htr]
        · by_cases hle : ts ≤ c
          · have hnc : ¬ (c < ts) := by omega
            simp [gcInvalid, gcKeep, hdv, hdp, htr, hle, hnc]
          · have hc : c < ts := by omega
            simp [gcInvalid, gcKeep, hdv, hdp, htr, hle, hc]
      · have htr' : jsTruthy (some v) = false := by
          revert htr; cases jsTruthy (some v) <;> simp
        simp [gcInvalid, gcKeep, hdv, htr']

/-- **C1, counterexample.** In `--all` mode (`cutoffTimeMs = null`) the sweep
removes a record whose `_deleted` field is missing — it is not kept and not
counted in `skippedInvalid`, contrary to the claim that such a record is
"never removed, even when gc is invoked in `--all` mode". -/
theorem computeGc_all_removes_invalid_counterexample :
    gcInvalid (fun _ => none) (Jv.jobj [("_id", Jv.jstr "a")]) = true ∧
    (computeGc (fun _ => none) [Jv.jobj [("_id", Jv.jstr "a")]] none).1 = [] ∧
    (computeGc (fun _ => none) [Jv.jobj [("_id", Jv.jstr "a")]] none).2.removed = 1 ∧
    (computeGc (fun _ => none) [Jv.jobj [("_id", Jv.jstr "a")]]
        none).2.skippedInvalid = 0 :=
  ⟨rfl, rfl, rfl, rfl⟩

/-- **C1** (amended). Under age-based garbage collection the survivors are
exactly the records that are gc-invalid (missing/falsy or unparseable
`_deleted`) or strictly newer than the cutoff — in particular every invalid
record is kept — and `skippedInvalid` counts exactly the invalid records.
Under `--all` pruning, every record, including the invalid ones, is removed. -/
theorem computeGc_invalid_records_policy (dateParse : Jv → Option Int)
    (records : List Jv) (c : Int) :
    (computeGc dateParse records (some c)).1
        = records.filter (fun r => gcKeep dateParse c r) ∧
    (computeGc dateParse records (some c)).2.skippedInvalid
        = (records.filter (fun r => gcInvalid dateParse r)).length ∧
    (computeGc dateParse records none).1 = [] ∧
    (computeGc dateParse records none).2.removed = records.length := by
  refine ⟨?_, ?_, ?_, ?_⟩ <;>
    simp [computeGc, gcLoop_age, gcLoop_all]

/-- **C7.** With an age cutoff `c`, a record whose truthy `_deleted` value
parses to exactly `c` is removed from every deleted log it appears in
(removal uses `deletedAt ≤ cutoff`), while a record whose `_deleted` parses
to `c + 1` (one millisecond after the cutoff) always survives. -/
theorem computeGc_cutoff_boundary (dateParse : Jv → Option Int) (c : Int)
    (r r' : Jv) (v v' : Jv)
    (hv : r.get "_deleted" = some v) (htr : jsTruthy (some v) = true)
    (hp : dateParse v = some c)
    (hv' : r'.get "_deleted" = some v') (htr' : jsTruthy (some v') = true)
    (hp' : dateParse v' = some (c + 1)) :
    (∀ records : List Jv, r ∉ (computeGc dateParse records (some c)).1) ∧
    (∀ records : List Jv, r' ∈ records →
        r' ∈ (computeGc dateParse records (some c)).1) := by
  have hkeep : gcKeep dateParse c r = false := by
    simp [gcKeep, gcInvalid, hv, hp, htr]
  have hkeep' : gcKeep dateParse c r' = true := by
    simp [gcKeep, gcInvalid, hv', hp', htr']
  constructor
  · intro records hmem
    rw [show (computeGc dateParse records (some c)).1
          = records.filter (fun x => gcKeep dateParse c x) from by
        simp [computeGc, gcLoop_age]] at hmem
    have := (List.mem_filter.mp hmem).2
    rw [hkeep] at this
    exact Bool.false_ne_true this
  · intro records hmem
    rw [show (computeGc dateParse records (some c)).1
          = records.filter (fun x => gcKeep dateParse c x) from by
        simp [computeGc, gcLoop_age]]
    exact List.mem_filter.mpr ⟨hmem, hkeep'⟩

/-- Witness for `computeGc_cutoff_boundary` at a concrete date parser, records
and cutoff `5`. -/
theorem computeGc_cutoff_boundary_witness :
    Jv.jobj [("_deleted", Jv.jstr "A")] ∉
      (computeGc
        (fun v => match v with
          | .jstr "A" => some 5
          | .jstr "B" => some 6
          | _ => none)
        [Jv.jobj [("_deleted", Jv.jstr "A")], Jv.jobj [("_deleted", Jv.jstr "B")]]
        (some 5)).1 ∧
    Jv.jobj [("_deleted", Jv.jstr "B")] ∈
      (computeGc
        (fun v => match v with
          | .jstr "A" => some 5
          | .jstr "B" => some 6
          | _ => none)
        [Jv.jobj [("_deleted", Jv.jstr "A")], Jv.jobj [("_deleted", Jv.jstr "B")]]
        (some 5)).1 := by
  have h := computeGc_cutoff_boundary
    (fun v => match v with
      | .jstr "A" => some 5
      | .jstr "B" => some 6
      | _ => none) 5
    (Jv.jobj [("_deleted", Jv.jstr "A")]) (Jv.jobj [("_deleted", Jv.jstr "B")])
    (Jv.jstr "A") (Jv.jstr "B") rfl rfl rfl rfl rfl rfl
  exact ⟨h.1 _, h.2 _ (by simp)⟩

/-! ## Codec lemmas: numbers -/

theorem toNat_char_ofNat_digit (d : Nat) (h : d < 10) :
    (Char.ofNat (48 + d)).toNat = 48 + d := by
  interval_cases d <;> decide

theorem natDigits_ne_nil (n : Nat) : natDigits n ≠ [] := by
  rw [natDigits.eq_def]
  split <;> simp

theorem natDigits_all_digits (n : Nat) : ∀ c ∈ natDigits n, isDigitC c = true := by
  induction n using Nat.strongRecOn with
  | _ n ih =>
    intro c hc
    rw [natDigits.eq_def] at hc
    by_cases h : n < 10
    · rw [if_pos h] at hc
      rw [List.mem_singleton] at hc
      subst hc
      simp [isDigitC, toNat_char_ofNat_digit n h]
      omega
    · rw [if_neg h] at hc
      rw [List.mem_append] at hc
      rcases hc with hc | hc
      · exact ih (n / 10) (by omega) c hc
      · rw [List.mem_singleton] at hc
        subst hc
        have h10 : n % 10 < 10 := Nat.mod_lt _ (by omega)
        simp [isDigitC, toNat_char_ofNat_digit _ h10]
        omega

theorem digitsVal_append_one (ds : List Char) (c : Char) :
    digitsVal (ds ++ [c]) = digitsVal ds * 10 + (c.toNat - 48) := by
  simp [digitsVal, List.foldl_append]

theorem digitsVal_natDigits (n : Nat) : digitsVal (natDigits n) = n := by
  induction n using Nat.strongRecOn with
  | _ n ih =>
    rw [natDigits.eq_def]
    by_cases h : n < 10
    · rw [if_pos h]
      simp [digitsVal, toNat_char_ofNat_digit n h]
    · rw [if_neg h]
      rw [digitsVal_append_one, ih (n / 10) (by omega),
          toNat_char_ofNat_digit _ (Nat.mod_lt _ (by omega))]
      omega

theorem natDigits_head_ne_zero (n : Nat) (h : n ≠ 0) :
    (natDigits n).head? ≠ some '0' := by
  induction n using Nat.strongRecOn with
  | _ n ih =>
    rw [natDigits.eq_def]
    by_cases h10 : n < 10
    · rw [if_pos h10]
      intro hc
      simp only [List.head?_cons, Option.some.injEq] at hc
      have := congrArg Char.toNat hc
      rw [toNat_char_ofNat_digit n h10, show Char.toNat '0' = 48 from by decide]
        at this
      omega
    · rw [if_neg h10]
      rcases hd : natDigits (n / 10) with _ | ⟨c, t⟩
      · exact absurd hd (natDigits_ne_nil _)
      · intro hc
        simp only [List.cons_append, List.head?_cons, Option.some.injEq] at hc
        refine ih (n / 10) (by omega) (by omega) ?_
        rw [hd, hc]
        rfl

theorem digit_ne_minus {c : Char} (h : isDigitC c = true) : c ≠ '-' := by
  intro he
  subst he
  exact absurd h (by decide)

theorem numBoundary_head {c : Char} {t : List Char}
    (h : numBoundary (c :: t) = true) :
    isDigitC c = false ∧ c ≠ '.' ∧ c ≠ 'e' ∧ c ≠ 'E' := by
  simp only [numBoundary, Bool.not_eq_true', Bool.or_eq_false_iff,
    decide_eq_false_iff_not] at h
  exact ⟨h.1.1.1, h.1.1.2, h.1.2, h.2⟩

theorem takeWhile_digit_split (ds rest : List Char)
    (hds : ∀ c ∈ ds, isDigitC c = true) (hrest : numBoundary rest = true) :
    (ds ++ rest).takeWhile isDigitC = ds ∧
    (ds ++ rest).dropWhile isDigitC = rest := by
  induction ds with
  | nil =>
    rcases rest with _ | ⟨c, t⟩
    · simp
    · have := (numBoundary_head hrest).1
      simp [List.takeWhile, List.dropWhile, this]
  | cons c t ih =>
    have hc : isDigitC c = true := hds c (by simp)
    have := ih (fun x hx => hds x (by simp [hx]))
    simp [List.takeWhile, List.dropWhile, hc, this.1, this.2]

theorem parseNatTok_inv (n : Nat) (rest : List Char)
    (hrest : numBoundary rest = true) :
    parseNatTok (natDigits n ++ rest) = some (n, rest) := by
  have hdigits := natDigits_all_digits n
  have hsplit := takeWhile_digit_split (natDigits n) rest hdigits hrest
  have hnozero : ¬((natDigits n).length > 1 ∧ (natDigits n).head? = some '0') := by
    rintro ⟨hlen, hhead⟩
    have hne : n ≠ 0 := by
      intro h0
      rw [h0] at hlen
      simp [natDigits] at hlen
    exact natDigits_head_ne_zero n hne hhead
  simp only [parseNatTok]
  rw [hsplit.1, hsplit.2]
  rw [if_neg (by simp [natDigits_ne_nil]), if_neg hnozero]
  rcases rest with _ | ⟨c, t⟩
  · simp [digitsVal_natDigits]
  · obtain ⟨_, hdot, he, hE⟩ := numBoundary_head hrest
    rw [digitsVal_natDigits]
    split
    · rename_i heq
      exact absurd (List.head_eq_of_cons_eq heq.symm).symm hdot
    · rename_i heq
      exact absurd (List.head_eq_of_cons_eq heq.symm).symm he
    · rename_i heq
      exact absurd (List.head_eq_of_cons_eq heq.symm).symm hE
    · rfl

theorem parseIntTok_inv (i : Int) (rest : List Char)
    (hrest : numBoundary rest = true) :
    parseIntTok (intChars i ++ rest) = some (i, rest) := by
  by_cases hneg : i < 0
  · have harg : intChars i ++ rest = '-' :: (natDigits i.natAbs ++ rest) := by
      simp [intChars, hneg]
    rw [harg]
    simp only [parseIntTok, parseNatTok_inv i.natAbs rest hrest, Option.map_some']
    have hv : -((i.natAbs : Int)) = i := by omega
    rw [hv]
  · obtain ⟨c0, t0, hnd⟩ : ∃ c0 t0, natDigits i.natAbs = c0 :: t0 := by
      rcases h : natDigits i.natAbs with _ | ⟨c0, t0⟩
      · exact absurd h (natDigits_ne_nil _)
      · exact ⟨c0, t0, rfl⟩
    have hc0 : isDigitC c0 = true := natDigits_all_digits _ c0 (by rw [hnd]; simp)
    have harg : intChars i ++ rest = c0 :: (t0 ++ rest) := by
      simp [intChars, hneg, hnd]
    rw [harg]
    have hmatch : parseIntTok (c0 :: (t0 ++ rest))
        = (parseNatTok (c0 :: (t0 ++ rest))).map (fun p => ((p.1 : Int), p.2)) := by
      rw [parseIntTok.eq_def]
      split
      · rename_i heq
        have : c0 = '-' := List.head_eq_of_cons_eq heq
        exact absurd this (digit_ne_minus hc0)
      · rfl
    rw [hmatch, show c0 :: (t0 ++ rest) = natDigits i.natAbs ++ rest from by
        rw [hnd]; rfl,
      parseNatTok_inv i.natAbs rest hrest]
    simp only [Option.map_some']
    have hv : ((i.natAbs : Int)) = i := by omega
    rw [hv]

/-! ## Codec lemmas: strings -/

theorem hexVal_hexChar (d : Nat) (h : d < 16) : hexVal (hexChar d) = some d := by
  interval_cases d <;> decide

theorem parseStringBody_escape (c : Char) (rest : List Char) :
    parseStringBody (escapeChar c ++ rest)
      = (parseStringBody rest).map (fun p => (c :: p.1, p.2)) := by
  rcases hr : parseStringBody rest with _ | p <;>
  · simp only [escapeChar]
    split
    · rename_i hc
      subst hc
      simp [parseStringBody, shortEscape, hr]
    · split
      · rename_i hc
        subst hc
        simp [parseStringBody, shortEscape, hr]
      · split
        · rename_i hc
          subst hc
          simp [parseStringBody, shortEscape, hr]
        · split
          · rename_i hc
            subst hc
            simp [parseStringBody, shortEscape, hr]
          · split
            · rename_i hc
              subst hc
              simp [parseStringBody, shortEscape, hr]
            · split
              · rename_i hc8
                have hc : c = Char.ofNat 8 := by
                  have hv : Char.ofNat c.toNat = Char.ofNat 8 := by rw [hc8]
                  rwa [Char.ofNat_toNat] at hv
                subst hc
                simp [parseStringBody, shortEscape, hr]
              · split
                · rename_i hc12
                  have hc : c = Char.ofNat 12 := by
                    have hv : Char.ofNat c.toNat = Char.ofNat 12 := by rw [hc12]
                    rwa [Char.ofNat_toNat] at hv
                  subst hc
                  simp [parseStringBody, shortEscape, hr]
                · split
                  · rename_i hlt
                    have h16a : c.toNat / 16 < 16 := by omega
                    have h16b : c.toNat % 16 < 16 := by omega
                    have harith : c.toNat / 16 * 16 + c.toNat % 16 = c.toNat := by
                      omega
                    have harith' :
                        ((0 * 16 + 0) * 16 + c.toNat / 16) * 16 + c.toNat % 16
                          = c.toNat := by omega
                    simp [parseStringBody, hexVal_hexChar _ h16a,
                      hexVal_hexChar _ h16b,
                      show hexVal ('0' : Char) = some 0 from rfl,
                      harith, harith', Char.ofNat_toNat, hr]
                  · rename_i hq hbs hnl hcr htb h8 h12 hge
                    have hq' : c ≠ '"' := by
                      intro he; exact hq he
                    have hbs' : c ≠ '\\' := by
                      intro he; exact hbs he
                    simp only [List.singleton_append]
                    rw [parseStringBody.eq_def]
                    split
                    · rename_i heq
                      cases heq
                    · rename_i heq
                      exact absurd (List.head_eq_of_cons_eq heq) hq'
                    · rename_i heq
                      exact absurd (List.head_eq_of_cons_eq heq) hbs'
                    · rename_i c2 rest2 heq
                      obtain ⟨hc2, hrest2⟩ :=
                        List.cons_eq_cons.mp heq
                      subst hc2
                      subst hrest2
                      simp [hr]

theorem parseStringBody_flatMap (l : List Char) (rest : List Char) :
    parseStringBody (l.flatMap escapeChar ++ '"' :: rest) = some (l, rest) := by
  induction l with
  | nil => simp [parseStringBody]
  | cons c t ih =>
    rw [List.flatMap_cons, List.append_assoc, parseStringBody_escape, ih]
    rfl

/-! ## Codec lemmas: dispatch on the first rendered character -/

theorem skipJsonWs_cons_of_not {c : Char} {t : List Char} (h : jsonWs c = false) :
    skipJsonWs (c :: t) = c :: t := by
  simp [skipJsonWs, List.dropWhile_cons, h]

theorem digit_char_facts {c : Char} (h : isDigitC c = true) :
    jsonWs c = false ∧ c ≠ 'n' ∧ c ≠ 't' ∧ c ≠ 'f' ∧ c ≠ '"' ∧ c ≠ '[' ∧
      c ≠ '\x7b' ∧ c ≠ ']' ∧ c ≠ '\x7d' ∧ jsIsSpace c = false := by
  have hn : 48 ≤ c.toNat ∧ c.toNat ≤ 57 := by
    simpa [isDigitC] using h
  refine ⟨?ws, ?_, ?_, ?_, ?_, ?_, ?_, ?_, ?_, ?sp⟩
  case ws =>
    by_contra hws
    have hws' : jsonWs c = true := by
      revert hws; cases jsonWs c <;> simp
    rcases (by simpa [jsonWs] using hws' :
        ((c = ' ' ∨ c = '\t') ∨ c = '\n') ∨ c = '\r') with ((he | he) | he) | he <;>
      (subst he; revert hn; decide)
  case sp =>
    by_contra hsp
    have hsp' : jsIsSpace c = true := by
      revert hsp; cases jsIsSpace c <;> simp
    rcases (by simpa [jsIsSpace] using hsp' :
        ((((c = ' ' ∨ c = '\t') ∨ c = '\n') ∨ c = '\r') ∨ c.toNat = 11)
          ∨ c.toNat = 12) with ((((he | he) | he) | he) | he) | he
    · subst he; revert hn; decide
    · subst he; revert hn; decide
    · subst he; revert hn; decide
    · subst he; revert hn; decide
    · omega
    · omega
  all_goals
    intro he
    subst he
    revert hn
    decide

theorem jsonStringify_head (j : Jv) :
    ∃ c t, jsonStringify j = c :: t ∧ jsonWs c = false ∧ c ≠ ']' ∧ c ≠ '\x7d' ∧
      jsIsSpace c = false := by
  cases j with
  | jnull => exact ⟨'n', _, rfl, by decide, by decide, by decide, by decide⟩
  | jbool b =>
    cases b with
    | true => exact ⟨'t', _, rfl, by decide, by decide, by decide, by decide⟩
    | false => exact ⟨'f', _, rfl, by decide, by decide, by decide, by decide⟩
  | jstr s => exact ⟨'"', _, rfl, by decide, by decide, by decide, by decide⟩
  | jarr es => exact ⟨'[', _, rfl, by decide, by decide, by decide, by decide⟩
  | jobj ms => exact ⟨'\x7b', _, rfl, by decide, by decide, by decide, by decide⟩
  | jnum n =>
    by_cases hneg : n < 0
    · refine ⟨'-', natDigits n.natAbs, ?_, by decide, by decide, by decide,
        by decide⟩
      simp [jsonStringify, intChars, hneg]
    · rcases hd : natDigits n.natAbs with _ | ⟨c0, t0⟩
      · exact absurd hd (natDigits_ne_nil _)
      · have hc0 : isDigitC c0 = true :=
          natDigits_all_digits _ c0 (by rw [hd]; simp)
        obtain ⟨hws, _, _, _, _, _, _, hbr, hbc, hsp⟩ := digit_char_facts hc0
        refine ⟨c0, t0, ?_, hws, hbr, hbc, hsp⟩
        simp [jsonStringify, intChars, hneg, hd]

theorem parseJv_num_case (fuel : Nat) (c0 : Char) (t : List Char)
    (hws : jsonWs c0 = false) (h1 : c0 ≠ 'n') (h2 : c0 ≠ 't') (h3 : c0 ≠ 'f')
    (h4 : c0 ≠ '"') (h5 : c0 ≠ '[') (h6 : c0 ≠ '\x7b') :
    parseJv (fuel + 1) (c0 :: t)
      = (parseIntTok (c0 :: t)).map (fun p => (Jv.jnum p.1, p.2)) := by
  simp only [parseJv]
  rw [skipJsonWs_cons_of_not hws]
  split
  · rename_i heq
    exact absurd (List.head_eq_of_cons_eq heq) h1
  · rename_i heq
    exact absurd (List.head_eq_of_cons_eq heq) h2
  · rename_i heq
    exact absurd (List.head_eq_of_cons_eq heq) h3
  · rename_i heq
    exact absurd (List.head_eq_of_cons_eq heq) h4
  · rename_i heq
    exact absurd (List.head_eq_of_cons_eq heq) h5
  · rename_i heq
    exact absurd (List.head_eq_of_cons_eq heq) h6
  · rfl

theorem parseJv_num (fuel : Nat) (i : Int) (rest : List Char)
    (hrest : numBoundary rest = true) :
    parseJv (fuel + 1) (intChars i ++ rest) = some (Jv.jnum i, rest) := by
  by_cases hneg : i < 0
  · have harg : intChars i ++ rest = '-' :: (natDigits i.natAbs ++ rest) := by
      simp [intChars, hneg]
    rw [harg,
      parseJv_num_case fuel '-' _ (by decide) (by decide) (by decide) (by decide)
        (by decide) (by decide) (by decide),
      ← harg, parseIntTok_inv i rest hrest]
    rfl
  · rcases hd : natDigits i.natAbs with _ | ⟨c0, t0⟩
    · exact absurd hd (natDigits_ne_nil _)
    · have hc0 : isDigitC c0 = true :=
        natDigits_all_digits _ c0 (by rw [hd]; simp)
      obtain ⟨hws, h1, h2, h3, h4, h5, h6, _, _, _⟩ := digit_char_facts hc0
      have harg : intChars i ++ rest = c0 :: (t0 ++ rest) := by
        simp [intChars, hneg, hd]
      rw [harg, parseJv_num_case fuel c0 _ hws h1 h2 h3 h4 h5 h6,
        ← harg, parseIntTok_inv i rest hrest]
      rfl

theorem stringifyElemsTail_cons (x : Jv) (xs : List Jv) :
    stringifyElemsTail (x :: xs) = ',' :: stringifyElems (x :: xs) := rfl

theorem stringifyElems_cons (x : Jv) (xs : List Jv) :
    stringifyElems (x :: xs) = jsonStringify x ++ stringifyElemsTail xs := rfl

theorem stringifyMembers_cons (k : String) (v : Jv) (ms : List (String × Jv)) :
    stringifyMembers ((k, v) :: ms)
      = quoteStr k ++ ':' :: (jsonStringify v ++ stringifyMembersTail ms) := rfl

theorem jsonStringify_arr (es : List Jv) :
    jsonStringify (.jarr es) = '[' :: (stringifyElems es ++ [']']) := rfl

theorem jsonStringify_obj (ms : List (String × Jv)) :
    jsonStringify (.jobj ms) = '\x7b' :: (stringifyMembers ms ++ ['\x7d']) := rfl

theorem stringifyMembersTail_cons (m : String × Jv) (ms : List (String × Jv)) :
    stringifyMembersTail (m :: ms) = ',' :: stringifyMembers (m :: ms) := by
  rcases m with ⟨k, v⟩
  rfl

theorem parseJv_arr_step (fuel : Nat) (r : List Char) :
    parseJv (fuel + 1) ('[' :: r)
      = (match skipJsonWs r with
         | ']' :: r2 => some (Jv.jarr [], r2)
         | r2 => (parseItems fuel r2).map (fun p => (Jv.jarr p.1, p.2))) := rfl

theorem parseJv_obj_step (fuel : Nat) (r : List Char) :
    parseJv (fuel + 1) ('\x7b' :: r)
      = (match skipJsonWs r with
         | '\x7d' :: r2 => some (Jv.jobj [], r2)
         | r2 => (parsePairs fuel r2).map (fun p => (Jv.jobj p.1, p.2))) := rfl

mutual

theorem rtVal : ∀ (j : Jv) (fuel : Nat) (rest : List Char),
    (jsonStringify j).length < fuel → numBoundary rest = true →
    parseJv fuel (jsonStringify j ++ rest) = some (j, rest)
  | .jnull, fuel, rest, hf, _ => by
    cases fuel with
    | zero => simp [jsonStringify] at hf
    | succ f => simp [jsonStringify, parseJv, skipJsonWs, jsonWs]
  | .jbool b, fuel, rest, hf, _ => by
    cases fuel with
    | zero => cases b <;> simp [jsonStringify] at hf
    | succ f => cases b <;> simp [jsonStringify, parseJv, skipJsonWs, jsonWs]
  | .jnum n, fuel, rest, hf, hrest => by
    cases fuel with
    | zero => exact absurd hf (Nat.not_lt_zero _)
    | succ f => exact parseJv_num f n rest hrest
  | .jstr s, fuel, rest, hf, _ => by
    cases fuel with
    | zero => exact absurd hf (Nat.not_lt_zero _)
    | succ f =>
      have harg : jsonStringify (.jstr s) ++ rest
          = '"' :: (s.data.flatMap escapeChar ++ '"' :: rest) := by
        simp [jsonStringify, quoteStr]
      rw [harg]
      show (parseStringBody (s.data.flatMap escapeChar ++ '"' :: rest)).map
            (fun p => (Jv.jstr (String.mk p.1), p.2))
          = some (.jstr s, rest)
      rw [parseStringBody_flatMap]
      rfl
  | .jarr [], fuel, rest, hf, _ => by
    cases fuel with
    | zero => simp [jsonStringify, stringifyElems] at hf
    | succ f =>
      have harg : jsonStringify (.jarr []) ++ rest = '[' :: ']' :: rest := by
        simp [jsonStringify, stringifyElems]
      rw [harg, parseJv_arr_step]
      rfl
  | .jarr (e :: es), fuel, rest, hf, _ => by
    cases fuel with
    | zero => exact absurd hf (Nat.not_lt_zero _)
    | succ f =>
      have hlen : (stringifyElems (e :: es)).length + 1 < f := by
        rw [jsonStringify_arr] at hf
        simp at hf
        omega
      have key := rtItems e es f rest hlen
      obtain ⟨c0, t0, hren, hws, hbr, _, _⟩ := jsonStringify_head e
      have harg : jsonStringify (.jarr (e :: es)) ++ rest
          = '[' :: (stringifyElems (e :: es) ++ ']' :: rest) := by
        simp [jsonStringify_arr]
      have hform : stringifyElems (e :: es) ++ ']' :: rest
          = c0 :: (t0 ++ (stringifyElemsTail es ++ ']' :: rest)) := by
        simp [stringifyElems_cons, hren]
      rw [harg, parseJv_arr_step]
      rw [hform, skipJsonWs_cons_of_not hws]
      split
      · rename_i heq
        exact absurd (List.head_eq_of_cons_eq heq) hbr
      · rw [← hform, key]
        rfl
  | .jobj [], fuel, rest, hf, _ => by
    cases fuel with
    | zero => simp [jsonStringify, stringifyMembers] at hf
    | succ f =>
      have harg : jsonStringify (.jobj []) ++ rest = '\x7b' :: '\x7d' :: rest := by
        simp [jsonStringify, stringifyMembers]
      rw [harg, parseJv_obj_step]
      rfl
  | .jobj (m :: ms), fuel, rest, hf, _ => by
    cases fuel with
    | zero => exact absurd hf (Nat.not_lt_zero _)
    | succ f =>
      have hlen : (stringifyMembers (m :: ms)).length + 1 < f := by
        rw [jsonStringify_obj] at hf
        simp at hf
        omega
      have key := rtPairs m ms f rest hlen
      have harg : jsonStringify (.jobj (m :: ms)) ++ rest
          = '\x7b' :: (stringifyMembers (m :: ms) ++ '\x7d' :: rest) := by
        simp [jsonStringify_obj]
      rcases m with ⟨k, v⟩
      have hform : stringifyMembers ((k, v) :: ms) ++ '\x7d' :: rest
          = '"' :: ((k.data.flatMap escapeChar)
              ++ ('"' :: (':' :: (jsonStringify v
                  ++ (stringifyMembersTail ms ++ '\x7d' :: rest))))) := by
        simp [stringifyMembers_cons, quoteStr]
      rw [harg, parseJv_obj_step]
      rw [hform, skipJsonWs_cons_of_not (by decide)]
      split
      · rename_i heq
        exact absurd (List.head_eq_of_cons_eq heq) (by decide)
      · rw [← hform, key]
        rfl
  termination_by j _ _ _ _ => sizeOf j

theorem rtItems : ∀ (e : Jv) (es : List Jv) (fuel : Nat) (rest : List Char),
    (stringifyElems (e :: es)).length + 1 < fuel →
    parseItems fuel (stringifyElems (e :: es) ++ ']' :: rest) = some (e :: es, rest)
  | e, [], fuel, rest, hf => by
    cases fuel with
    | zero => exact absurd hf (Nat.not_lt_zero _)
    | succ f =>
      have hfe : (jsonStringify e).length < f := by
        rw [stringifyElems_cons] at hf
        simp [stringifyElemsTail] at hf
        omega
      have hv := rtVal e f (']' :: rest) hfe rfl
      have harg : stringifyElems [e] ++ ']' :: rest
          = jsonStringify e ++ ']' :: rest := by
        simp [stringifyElems_cons, stringifyElemsTail]
      rw [harg]
      show (do
        let p ← parseJv f (jsonStringify e ++ ']' :: rest)
        match skipJsonWs p.2 with
        | ',' :: r2 => do
          let q ← parseItems f r2
          pure (p.1 :: q.1, q.2)
        | ']' :: r2 => pure ([p.1], r2)
        | _ => none) = some ([e], rest)
      rw [hv]
      simp [skipJsonWs, jsonWs]
  | e, x :: xs, fuel, rest, hf => by
    cases fuel with
    | zero => exact absurd hf (Nat.not_lt_zero _)
    | succ f =>
      have hlens : (stringifyElems (e :: x :: xs)).length
          = (jsonStringify e).length + 1 + (stringifyElems (x :: xs)).length := by
        rw [stringifyElems_cons, stringifyElemsTail_cons]
        simp
        omega
      have hfe : (jsonStringify e).length < f := by omega
      have hfx : (stringifyElems (x :: xs)).length + 1 < f := by omega
      have hv := rtVal e f
        (',' :: (stringifyElems (x :: xs) ++ ']' :: rest)) hfe rfl
      have key := rtItems x xs f rest hfx
      have harg : stringifyElems (e :: x :: xs) ++ ']' :: rest
          = jsonStringify e
              ++ (',' :: (stringifyElems (x :: xs) ++ ']' :: rest)) := by
        rw [stringifyElems_cons, stringifyElemsTail_cons]
        simp
      rw [harg]
      show (do
        let p ← parseJv f (jsonStringify e
          ++ (',' :: (stringifyElems (x :: xs) ++ ']' :: rest)))
        match skipJsonWs p.2 with
        | ',' :: r2 => do
          let q ← parseItems f r2
          pure (p.1 :: q.1, q.2)
        | ']' :: r2 => pure ([p.1], r2)
        | _ => none) = some (e :: x :: xs, rest)
      rw [hv]
      show (match skipJsonWs (',' :: (stringifyElems (x :: xs) ++ ']' :: rest)) with
        | ',' :: r2 => do
          let q ← parseItems f r2
          pure (e :: q.1, q.2)
        | ']' :: r2 => pure ([e], r2)
        | _ => none) = some (e :: x :: xs, rest)
      rw [skipJsonWs_cons_of_not (by decide)]
      show (do
        let q ← parseItems f (stringifyElems (x :: xs) ++ ']' :: rest)
        pure (e :: q.1, q.2)) = some (e :: x :: xs, rest)
      rw [key]
      rfl
  termination_by e es _ _ _ => sizeOf e + sizeOf es

theorem rtPairs : ∀ (m : String × Jv) (ms : List (String × Jv)) (fuel : Nat)
    (rest : List Char),
    (stringifyMembers (m :: ms)).length + 1 < fuel →
    parsePairs fuel (stringifyMembers (m :: ms) ++ '\x7d' :: rest)
      = some (m :: ms, rest)
  | (k, v), ms, fuel, rest, hf => by
    cases fuel with
    | zero => exact absurd hf (Nat.not_lt_zero _)
    | succ f =>
      have hlens : (stringifyMembers ((k, v) :: ms)).length
          = (quoteStr k).length + 1 + (jsonStringify v).length
              + (stringifyMembersTail ms).length := by
        rw [stringifyMembers_cons]
        simp
        omega
      have hfv : (jsonStringify v).length < f := by omega
      have harg : stringifyMembers ((k, v) :: ms) ++ '\x7d' :: rest
          = '"' :: ((k.data.flatMap escapeChar)
              ++ ('"' :: (':' :: (jsonStringify v
                  ++ (stringifyMembersTail ms ++ '\x7d' :: rest))))) := by
        simp [stringifyMembers_cons, quoteStr]
      rw [harg]
      show (do
        let ks ← parseStringBody ((k.data.flatMap escapeChar)
          ++ ('"' :: (':' :: (jsonStringify v
              ++ (stringifyMembersTail ms ++ '\x7d' :: rest)))))
        match skipJsonWs ks.2 with
        | ':' :: r2 => do
          let p ← parseJv f r2
          match skipJsonWs p.2 with
          | ',' :: r4 => do
            let q ← parsePairs f r4
            pure ((String.mk ks.1, p.1) :: q.1, q.2)
          | '\x7d' :: r4 => pure ([(String.mk ks.1, p.1)], r4)
          | _ => none
        | _ => none) = some ((k, v) :: ms, rest)
      rw [parseStringBody_flatMap]
      show (match skipJsonWs (':' :: (jsonStringify v
          ++ (stringifyMembersTail ms ++ '\x7d' :: rest))) with
        | ':' :: r2 => do
          let p ← parseJv f r2
          match skipJsonWs p.2 with
          | ',' :: r4 => do
            let q ← parsePairs f r4
            pure ((String.mk k.data, p.1) :: q.1, q.2)
          | '\x7d' :: r4 => pure ([(String.mk k.data, p.1)], r4)
          | _ => none
        | _ => none) = some ((k, v) :: ms, rest)
      rw [skipJsonWs_cons_of_not (by decide)]
      cases ms with
      | nil =>
        have hv := rtVal v f ('\x7d' :: rest) hfv rfl
        show (do
          let p ← parseJv f (jsonStringify v
            ++ (stringifyMembersTail [] ++ '\x7d' :: rest))
          match skipJsonWs p.2 with
          | ',' :: r4 => do
            let q ← parsePairs f r4
            pure ((String.mk k.data, p.1) :: q.1, q.2)
          | '\x7d' :: r4 => pure ([(String.mk k.data, p.1)], r4)
          | _ => none) = some ([(k, v)], rest)
        rw [show stringifyMembersTail [] ++ '\x7d' :: rest = '\x7d' :: rest from rfl,
          hv]
        simp [skipJsonWs, jsonWs]
      | cons m2 ms2 =>
        have hfm : (stringifyMembers (m2 :: ms2)).length + 1 < f := by
          have hlen2 : (stringifyMembersTail (m2 :: ms2)).length
              = (stringifyMembers (m2 :: ms2)).length + 1 := by
            rw [stringifyMembersTail_cons]
            simp
          omega
        have hv := rtVal v f
          (',' :: (stringifyMembers (m2 :: ms2) ++ '\x7d' :: rest)) hfv rfl
        have key := rtPairs m2 ms2 f rest hfm
        have hform : jsonStringify v
            ++ (stringifyMembersTail (m2 :: ms2) ++ '\x7d' :: rest)
            = jsonStringify v
              ++ (',' :: (stringifyMembers (m2 :: ms2) ++ '\x7d' :: rest)) := by
          rw [stringifyMembersTail_cons]
          simp
        show (do
          let p ← parseJv f (jsonStringify v
            ++ (stringifyMembersTail (m2 :: ms2) ++ '\x7d' :: rest))
          match skipJsonWs p.2 with
          | ',' :: r4 => do
            let q ← parsePairs f r4
            pure ((String.mk k.data, p.1) :: q.1, q.2)
          | '\x7d' :: r4 => pure ([(String.mk k.data, p.1)], r4)
          | _ => none) = some ((k, v) :: m2 :: ms2, rest)
        rw [hform, hv]
        show (match skipJsonWs (',' :: (stringifyMembers (m2 :: ms2)
            ++ '\x7d' :: rest)) with
          | ',' :: r4 => do
            let q ← parsePairs f r4
            pure ((String.mk k.data, v) :: q.1, q.2)
          | '\x7d' :: r4 => pure ([(String.mk k.data, v)], r4)
          | _ => none) = some ((k, v) :: m2 :: ms2, rest)
        rw [skipJsonWs_cons_of_not (by decide)]
        show (do
          let q ← parsePairs f (stringifyMembers (m2 :: ms2) ++ '\x7d' :: rest)
          pure ((String.mk k.data, v) :: q.1, q.2)) = some ((k, v) :: m2 :: ms2, rest)
        rw [key]
        rfl
  termination_by m ms _ _ _ => sizeOf m + sizeOf ms

end

theorem jsonParseLine_stringify (j : Jv) :
    jsonParseLine (jsonStringify j) = some j := by
  have hfuel : (jsonStringify j).length < 2 * (jsonStringify j).length + 2 := by
    omega
  have h := rtVal j (2 * (jsonStringify j).length + 2) [] hfuel rfl
  rw [List.append_nil] at h
  simp [jsonParseLine, h, skipJsonWs]

/-! ## Codec lemmas: rendered lines are newline-free and non-blank -/

theorem hexChar_ne_newline (d : Nat) (h : d < 16) : hexChar d ≠ '\n' := by
  interval_cases d <;> decide

theorem escapeChar_no_newline (c : Char) : '\n' ∉ escapeChar c := by
  simp only [escapeChar]
  split
  · decide
  · split
    · decide
    · split
      · decide
      · split
        · decide
        · split
          · decide
          · split
            · decide
            · split
              · decide
              · split
                · rename_i hlt
                  intro hmem
                  simp only [List.mem_cons, List.not_mem_nil, or_false]
                    at hmem
                  rcases hmem with h | h | h | h | h | h
                  · exact absurd h (by decide)
                  · exact absurd h (by decide)
                  · exact absurd h (by decide)
                  · exact absurd h (by decide)
                  · exact hexChar_ne_newline (c.toNat / 16) (by omega) h.symm
                  · exact hexChar_ne_newline (c.toNat % 16) (by omega) h.symm
                · rename_i hq hbs hnl hcr htb h8 h12 hge
                  intro hmem
                  rw [List.mem_singleton] at hmem
                  exact hnl hmem.symm

mutual

theorem jsonStringify_no_newline : ∀ j : Jv, '\n' ∉ jsonStringify j
  | .jnull => by decide
  | .jbool b => by cases b <;> decide
  | .jnum n => by
    intro hmem
    simp only [jsonStringify, intChars] at hmem
    rw [List.mem_append] at hmem
    rcases hmem with hmem | hmem
    · split at hmem
      · rw [List.mem_singleton] at hmem
        exact absurd hmem (by decide)
      · simp at hmem
    · have := natDigits_all_digits n.natAbs '\n' hmem
      exact absurd this (by decide)
  | .jstr s => by
    intro hmem
    simp only [jsonStringify, quoteStr, List.mem_cons, List.mem_append,
      List.not_mem_nil, or_false] at hmem
    rcases hmem with hmem | hmem | hmem
    · exact absurd hmem (by decide)
    · rw [List.mem_flatMap] at hmem
      obtain ⟨c, _, hc⟩ := hmem
      exact escapeChar_no_newline c hc
    · exact absurd hmem (by decide)
  | .jarr es => by
    intro hmem
    simp only [jsonStringify_arr, List.mem_cons, List.mem_append,
      List.not_mem_nil, or_false] at hmem
    rcases hmem with hmem | hmem | hmem
    · exact absurd hmem (by decide)
    · exact stringifyElems_no_newline es hmem
    · exact absurd hmem (by decide)
  | .jobj ms => by
    intro hmem
    simp only [jsonStringify_obj, List.mem_cons, List.mem_append,
      List.not_mem_nil, or_false] at hmem
    rcases hmem with hmem | hmem | hmem
    · exact absurd hmem (by decide)
    · exact stringifyMembers_no_newline ms hmem
    · exact absurd hmem (by decide)

theorem stringifyElems_no_newline : ∀ es : List Jv, '\n' ∉ stringifyElems es
  | [] => by decide
  | e :: rest => by
    intro hmem
    rw [stringifyElems_cons, List.mem_append] at hmem
    rcases hmem with hmem | hmem
    · exact jsonStringify_no_newline e hmem
    · exact stringifyElemsTail_no_newline rest hmem

theorem stringifyElemsTail_no_newline : ∀ es : List Jv, '\n' ∉ stringifyElemsTail es
  | [] => by decide
  | e :: rest => by
    intro hmem
    rw [stringifyElemsTail_cons, List.mem_cons] at hmem
    rcases hmem with hmem | hmem
    · exact absurd hmem (by decide)
    · rw [stringifyElems_cons, List.mem_append] at hmem
      rcases hmem with hmem | hmem
      · exact jsonStringify_no_newline e hmem
      · exact stringifyElemsTail_no_newline rest hmem

theorem stringifyMembers_no_newline :
    ∀ ms : List (String × Jv), '\n' ∉ stringifyMembers ms
  | [] => by decide
  | (k, v) :: rest => by
    intro hmem
    rw [stringifyMembers_cons, List.mem_append, List.mem_cons] at hmem
    rcases hmem with hmem | hmem | hmem
    · exact quoteStr_no_newline k hmem
    · exact absurd hmem (by decide)
    · rw [List.mem_append] at hmem
      rcases hmem with hmem | hmem
      · exact jsonStringify_no_newline v hmem
      · exact stringifyMembersTail_no_newline rest hmem

theorem stringifyMembersTail_no_newline :
    ∀ ms : List (String × Jv), '\n' ∉ stringifyMembersTail ms
  | [] => by decide
  | (k, v) :: rest => by
    intro hmem
    rw [stringifyMembersTail_cons, List.mem_cons] at hmem
    rcases hmem with hmem | hmem
    · exact absurd hmem (by decide)
    · rw [stringifyMembers_cons, List.mem_append, List.mem_cons] at hmem
      rcases hmem with hmem | hmem | hmem
      · exact quoteStr_no_newline k hmem
      · exact absurd hmem (by decide)
      · rw [List.mem_append] at hmem
        rcases hmem with hmem | hmem
        · exact jsonStringify_no_newline v hmem
        · exact stringifyMembersTail_no_newline rest hmem

theorem quoteStr_no_newline (k : String) : '\n' ∉ quoteStr k := by
  intro hmem
  simp only [quoteStr, List.mem_cons, List.mem_append,
    List.not_mem_nil, or_false] at hmem
  rcases hmem with hmem | hmem | hmem
  · exact absurd hmem (by decide)
  · rw [List.mem_flatMap] at hmem
    obtain ⟨c, _, hc⟩ := hmem
    exact escapeChar_no_newline c hc
  · exact absurd hmem (by decide)

end

/-! ## Line-layer lemmas -/

theorem dropWhile_append_last {p : Char → Bool} (c : Char) (hc : p c = false) :
    ∀ xs : List Char, (xs ++ [c]).dropWhile p ≠ []
  | [] => by simp [List.dropWhile, hc]
  | x :: xs => by
    by_cases hx : p x = true
    · simpa [List.dropWhile, hx] using dropWhile_append_last c hc xs
    · have hx' : p x = false := by
        revert hx; cases p x <;> simp
      simp [List.dropWhile, hx']

theorem jsTrim_cons_ne_nil {c : Char} (t : List Char) (hc : jsIsSpace c = false) :
    jsTrim (c :: t) ≠ [] := by
  have h1 : (c :: t).dropWhile jsIsSpace = c :: t := by
    simp [List.dropWhile, hc]
  rw [jsTrim, h1]
  intro hcon
  have h2 : (c :: t).reverse.dropWhile jsIsSpace = [] := by
    rcases hrev : (c :: t).reverse.dropWhile jsIsSpace with _ | ⟨x, xs⟩
    · rfl
    · rw [hrev] at hcon
      simp at hcon
  have h3 : (c :: t).reverse = t.reverse ++ [c] := by simp
  rw [h3] at h2
  exact dropWhile_append_last c hc t.reverse h2

theorem isEmpty_false_of_ne_nil {l : List Char} (h : l ≠ []) :
    l.isEmpty = false := by
  rcases l with _ | ⟨x, xs⟩
  · exact absurd rfl h
  · rfl

theorem splitNl_append (l rest : List Char) (h : '\n' ∉ l) :
    splitNl (l ++ '\n' :: rest) = l :: splitNl rest := by
  induction l with
  | nil => simp [splitNl]
  | cons c t ih =>
    have hc : ¬(c = '\n') := by
      intro he
      exact h (by simp [he])
    have ht : '\n' ∉ t := fun hh => h (by simp [hh])
    simp only [List.cons_append, splitNl, if_neg hc, List.append_eq]
    rw [ih ht]

theorem loadLines_map_stringify (operation : String) (allow ends : Bool)
    (lastIdx : Nat) :
    ∀ (rs : List Jv) (idx : Nat) (tail : List (List Char)),
    loadLines operation allow ends lastIdx idx
        (rs.map (fun r => jsonStringify r) ++ tail)
      = (loadLines operation allow ends lastIdx (idx + rs.length) tail).map
          (fun l => rs ++ l) := by
  intro rs
  induction rs with
  | nil =>
    intro idx tail
    rcases h : loadLines operation allow ends lastIdx idx tail with e | l <;>
      simp [h, Except.map]
  | cons r rs ih =>
    intro idx tail
    obtain ⟨c, t, hren, _, _, _, hsp⟩ := jsonStringify_head r
    have hblank1 : (jsonStringify r).isEmpty = false := by
      rw [hren]; rfl
    have hblank2 : (jsTrim (jsonStringify r)).isEmpty = false := by
      rw [hren]
      exact isEmpty_false_of_ne_nil (jsTrim_cons_ne_nil t hsp)
    have hcond : ((jsonStringify r).isEmpty
        || (jsTrim (jsonStringify r)).isEmpty) = false := by
      rw [hblank1, hblank2]
      rfl
    simp only [List.map_cons, List.cons_append, loadLines, hcond,
      Bool.false_eq_true, if_false, jsonParseLine_stringify, List.append_eq]
    rw [ih (idx + 1) tail]
    have hidx : idx + 1 + rs.length = idx + (rs.length + 1) := by omega
    rw [hidx]
    rcases h : loadLines operation allow ends lastIdx (idx + (rs.length + 1))
        tail with e | l <;> simp [h, Except.map]

theorem splitNl_joinNl :
    ∀ rs : List Jv, rs ≠ [] →
    splitNl (joinNl (rs.map (fun r => jsonStringify r)) ++ ['\n'])
      = rs.map (fun r => jsonStringify r) ++ [[]]
  | [], h => absurd rfl h
  | [x], _ => by
    have hx : '\n' ∉ jsonStringify x := jsonStringify_no_newline x
    simp only [List.map_cons, List.map_nil, joinNl]
    rw [show jsonStringify x ++ ['\n'] = jsonStringify x ++ '\n' :: [] from rfl,
      splitNl_append _ _ hx]
    rfl
  | x :: y :: ys, _ => by
    have hx : '\n' ∉ jsonStringify x := jsonStringify_no_newline x
    have ih := splitNl_joinNl (y :: ys) (by simp)
    simp only [List.map_cons, joinNl] at ih ⊢
    rw [List.append_assoc, List.cons_append, splitNl_append _ _ hx, ih]
    simp

theorem joinNl_cons_head (l : List Char) :
    ∀ ls : List (List Char), ∃ u, joinNl (l :: ls) = l ++ u
  | [] => ⟨[], by simp [joinNl]⟩
  | l2 :: ls => ⟨'\n' :: joinNl (l2 :: ls), rfl⟩

theorem loadLines_blank_line (operation : String) (allow ends : Bool)
    (lastIdx idx : Nat) : loadLines operation allow ends lastIdx idx [[]]
      = .ok [] := rfl

/-- **C3.** Writing any list of records with the atomic full rewrite
(`writeRecords` / `writeDeletedRecords`, whose file content is
`writeRecordsContent`) and loading the resulting content back
(`loadRecordsFromFile`, either log, either `allowPartialLastLine` mode)
yields exactly the input list, element for element, in the same order. -/
theorem writeRecords_load_roundtrip (records : List Jv) (operation : String)
    (allowPartialLastLine : Bool) :
    loadRecordsFromContent true (writeRecordsContent records) operation
      allowPartialLastLine = .ok records := by
  rcases records with _ | ⟨r, rs⟩
  · rfl
  · obtain ⟨c, t, hren, _, _, _, hsp⟩ := jsonStringify_head r
    have hcontent : writeRecordsContent (r :: rs)
        = joinNl ((r :: rs).map (fun x => jsonStringify x)) ++ ['\n'] := by
      simp [writeRecordsContent]
    obtain ⟨u, hju⟩ :=
      joinNl_cons_head (jsonStringify r) (rs.map (fun x => jsonStringify x))
    have hct : writeRecordsContent (r :: rs) = c :: (t ++ u ++ ['\n']) := by
      rw [hcontent, List.map_cons, hju, hren]
      simp
    have htrim : (jsTrim (writeRecordsContent (r :: rs))).isEmpty = false := by
      rw [hct]
      exact isEmpty_false_of_ne_nil (jsTrim_cons_ne_nil _ hsp)
    simp only [loadRecordsFromContent, Bool.not_true, Bool.false_eq_true,
      if_false, htrim]
    rw [hcontent, splitNl_joinNl (r :: rs) (by simp),
      loadLines_map_stringify _ _ _ _ (r :: rs) 0 [[]],
      loadLines_blank_line]
    simp [Except.map]

/-! ## Malformed-line handling (claim C8) -/

theorem splitNl_no_newline : ∀ l : List Char, '\n' ∉ l → splitNl l = [l]
  | [], _ => rfl
  | c :: t, h => by
    have hc : ¬(c = '\n') := fun he => h (by simp [he])
    have ht : '\n' ∉ t := fun hh => h (by simp [hh])
    simp only [splitNl, if_neg hc, splitNl_no_newline t ht]

theorem splitNl_ne_nil : ∀ l : List Char, splitNl l ≠ []
  | [] => by simp [splitNl]
  | c :: t => by
    by_cases hc : c = '\n'
    · simp [splitNl, hc]
    · simp only [splitNl, if_neg hc]
      rcases h : splitNl t with _ | ⟨x, xs⟩
      · simp
      · simp

theorem getLast?_append_right (A B : List Char) (h : B ≠ []) :
    (A ++ B).getLast? = B.getLast? := by
  rw [List.getLast?_append]
  rcases hb : B.getLast? with _ | c
  · exact absurd (List.getLast?_eq_none_iff.mp hb) h
  · rfl

theorem mem_of_getLast?_some {l : List Char} {a : Char}
    (h : l.getLast? = some a) : a ∈ l := by
  obtain ⟨hne, he⟩ :=
    List.mem_getLast?_eq_getLast (l := l) (x := a) (by rw [h]; rfl)
  rw [he]
  exact List.getLast_mem hne

theorem jsTrim_eq_nil_iff (l : List Char) :
    jsTrim l = [] ↔ ∀ c ∈ l, jsIsSpace c = true := by
  constructor
  · intro h c hc
    have h1 : (l.dropWhile jsIsSpace).reverse.dropWhile jsIsSpace = [] := by
      have := congrArg List.reverse h
      simpa [jsTrim] using this
    have h2 : ∀ x ∈ l.dropWhile jsIsSpace, jsIsSpace x = true := by
      intro x hx
      exact List.dropWhile_eq_nil_iff.mp h1 x (by simpa using hx)
    rcases List.mem_append.mp
        ((List.takeWhile_append_dropWhile (p := jsIsSpace) (l := l)) ▸ hc)
      with hmem | hmem
    · exact List.mem_takeWhile_imp hmem
    · exact h2 c hmem
  · intro h
    rw [jsTrim]
    have h1 : l.dropWhile jsIsSpace = [] := List.dropWhile_eq_nil_iff.mpr h
    simp [h1]

theorem jsTrim_isEmpty_false_of_mem {l : List Char} {c : Char} (hc : c ∈ l)
    (hns : jsIsSpace c = false) : (jsTrim l).isEmpty = false := by
  apply isEmpty_false_of_ne_nil
  intro hnil
  have := (jsTrim_eq_nil_iff l).mp hnil c hc
  rw [hns] at this
  exact Bool.false_ne_true this

theorem exists_nonspace_of_trim {bad : List Char}
    (hb : (jsTrim bad).isEmpty = false) : ∃ c ∈ bad, jsIsSpace c = false := by
  by_contra hall
  push_neg at hall
  have hall' : ∀ c ∈ bad, jsIsSpace c = true := by
    intro c hc
    have := hall c hc
    revert this
    cases jsIsSpace c <;> simp
  rw [(jsTrim_eq_nil_iff bad).mpr hall'] at hb
  simp at hb

theorem bad_ne_nil_of_trim {bad : List Char}
    (hb : (jsTrim bad).isEmpty = false) : bad.isEmpty = false := by
  rcases bad with _ | ⟨c, t⟩
  · simp [jsTrim] at hb
  · rfl

theorem splitNl_writeContent :
    ∀ (pre : List Jv) (X : List Char),
    splitNl (writeRecordsContent pre ++ X)
      = pre.map (fun r => jsonStringify r) ++ splitNl X
  | [], X => by simp [writeRecordsContent, joinNl]
  | [r], X => by
    have hx : '\n' ∉ jsonStringify r := jsonStringify_no_newline r
    have harg : writeRecordsContent [r] ++ X = jsonStringify r ++ '\n' :: X := by
      simp [writeRecordsContent, joinNl]
    rw [harg, splitNl_append _ _ hx]
    rfl
  | r :: r2 :: rs, X => by
    have hx : '\n' ∉ jsonStringify r := jsonStringify_no_newline r
    have harg : writeRecordsContent (r :: r2 :: rs) ++ X
        = jsonStringify r ++ '\n' :: (writeRecordsContent (r2 :: rs) ++ X) := by
      simp [writeRecordsContent, joinNl]
    rw [harg, splitNl_append _ _ hx, splitNl_writeContent (r2 :: rs) X]
    rfl

theorem loadLines_partial_drop (operation : String) (idx : Nat)
    (bad : List Char) (hne : bad.isEmpty = false)
    (hnb : (jsTrim bad).isEmpty = false) (hbp : jsonParseLine bad = none) :
    loadLines operation true false idx idx [bad] = .ok [] := by
  simp [loadLines, hne, hnb, hbp]

theorem loadLines_bad_error (operation : String) (allow ends : Bool)
    (lastIdx idx : Nat) (bad : List Char) (tail : List (List Char))
    (hne : bad.isEmpty = false) (hnb : (jsTrim bad).isEmpty = false)
    (hbp : jsonParseLine bad = none)
    (hcond : (allow && decide (idx = lastIdx) && !ends) = false) :
    loadLines operation allow ends lastIdx idx (bad :: tail)
      = .error (.operationFailed operation (idx + 1) (bad.take 100)) := by
  simp only [loadLines, hne, hnb, Bool.or_self, Bool.false_eq_true, if_false,
    hbp, hcond]

/-- **C8.** Malformed-line policy of `loadRecordsFromFile`: a malformed final
line with no trailing line terminator is silently dropped when loading the
deleted log (`allowPartialLastLine = true`); a malformed line that is
followed by a line terminator (any position, either log) raises the hard
parse error carrying the 1-based line number and the 100-character snippet;
and on the active log (`allowPartialLastLine = false`) even a truncated
final malformed line raises that error. -/
theorem loadRecordsFromFile_malformed_line_policy
    (bad : List Char) (hnl : '\n' ∉ bad)
    (hnb : (jsTrim bad).isEmpty = false) (hbp : jsonParseLine bad = none) :
    (∀ (pre : List Jv) (operation : String),
      loadRecordsFromContent true (writeRecordsContent pre ++ bad)
        operation true = .ok pre) ∧
    (∀ (pre : List Jv) (rest : List Char) (operation : String) (allow : Bool),
      loadRecordsFromContent true
          (writeRecordsContent pre ++ (bad ++ '\n' :: rest)) operation allow
        = .error (.operationFailed operation (pre.length + 1) (bad.take 100))) ∧
    (∀ (pre : List Jv) (operation : String),
      loadRecordsFromContent true (writeRecordsContent pre ++ bad)
        operation false
        = .error (.operationFailed operation (pre.length + 1) (bad.take 100))) := by
  obtain ⟨c, hcmem, hcns⟩ := exists_nonspace_of_trim hnb
  have hbadne : bad ≠ [] := by
    intro he
    rw [he] at hcmem
    simp at hcmem
  have hbadempty : bad.isEmpty = false := bad_ne_nil_of_trim hnb
  have hends : ∀ pre : List Jv,
      decide ((writeRecordsContent pre ++ bad).getLast? = some '\n') = false := by
    intro pre
    rw [getLast?_append_right _ _ hbadne]
    rcases hlast : bad.getLast? with _ | c2
    · simp
    · have hc2 : c2 ∈ bad := mem_of_getLast?_some hlast
      have : ¬(c2 = '\n') := fun he => hnl (he ▸ hc2)
      simp [this]
  refine ⟨?_, ?_, ?_⟩
  · intro pre operation
    have htrim : (jsTrim (writeRecordsContent pre ++ bad)).isEmpty = false :=
      jsTrim_isEmpty_false_of_mem (List.mem_append.mpr (Or.inr hcmem)) hcns
    simp only [loadRecordsFromContent, Bool.not_true, Bool.false_eq_true,
      if_false, htrim]
    rw [splitNl_writeContent, splitNl_no_newline bad hnl, hends pre]
    have hlen : ((pre.map (fun r => jsonStringify r) ++ [bad]).length - 1)
        = pre.length := by simp
    rw [hlen, loadLines_map_stringify _ _ _ _ pre 0 [bad],
      show 0 + pre.length = pre.length from by omega,
      loadLines_partial_drop operation pre.length bad hbadempty hnb hbp]
    simp [Except.map]
  · intro pre rest operation allow
    have htrim : (jsTrim (writeRecordsContent pre
        ++ (bad ++ '\n' :: rest))).isEmpty = false :=
      jsTrim_isEmpty_false_of_mem
        (List.mem_append.mpr (Or.inr (List.mem_append.mpr (Or.inl hcmem)))) hcns
    simp only [loadRecordsFromContent, Bool.not_true, Bool.false_eq_true,
      if_false, htrim]
    rw [splitNl_writeContent, splitNl_append _ _ hnl]
    have hLpos : 1 ≤ (splitNl rest).length :=
      List.length_pos.mpr (splitNl_ne_nil rest)
    have hlen : ((pre.map (fun r => jsonStringify r)
        ++ bad :: splitNl rest).length - 1)
        = pre.length + (splitNl rest).length := by
      simp only [List.length_append, List.length_cons, List.length_map]
      omega
    have hd : decide (pre.length = pre.length + (splitNl rest).length)
        = false := decide_eq_false (by omega)
    rw [hlen, loadLines_map_stringify _ _ _ _ pre 0 (bad :: splitNl rest),
      show 0 + pre.length = pre.length from by omega,
      loadLines_bad_error operation allow _ _ pre.length bad (splitNl rest)
        hbadempty hnb hbp
        (by rw [hd]; simp only [Bool.and_false, Bool.false_and])]
    rfl
  · intro pre operation
    have htrim : (jsTrim (writeRecordsContent pre ++ bad)).isEmpty = false :=
      jsTrim_isEmpty_false_of_mem (List.mem_append.mpr (Or.inr hcmem)) hcns
    simp only [loadRecordsFromContent, Bool.not_true, Bool.false_eq_true,
      if_false, htrim]
    rw [splitNl_writeContent, splitNl_no_newline bad hnl]
    have hlen : ((pre.map (fun r => jsonStringify r) ++ [bad]).length - 1)
        = pre.length := by simp
    rw [hlen, loadLines_map_stringify _ _ _ _ pre 0 [bad],
      show 0 + pre.length = pre.length from by omega,
      loadLines_bad_error operation false _ _ pre.length bad []
        hbadempty hnb hbp (by simp)]
    rfl

/-- Witness for `loadRecordsFromFile_malformed_line_policy` at the concrete
malformed line `{oops` with an empty prefix. -/
theorem loadRecordsFromFile_malformed_line_policy_witness :
    loadRecordsFromContent true (writeRecordsContent [] ++ "\x7boops".data)
        "loadDeletedRecords" true = .ok [] ∧
    loadRecordsFromContent true
        (writeRecordsContent [] ++ ("\x7boops".data ++ '\n' :: []))
        "loadDeletedRecords" true
      = .error (.operationFailed "loadDeletedRecords" 1
          ("\x7boops".data.take 100)) ∧
    loadRecordsFromContent true (writeRecordsContent [] ++ "\x7boops".data)
        "loadRecords" false
      = .error (.operationFailed "loadRecords" 1 ("\x7boops".data.take 100)) := by
  have h := loadRecordsFromFile_malformed_line_policy "\x7boops".data
    (by decide) rfl rfl
  exact ⟨h.1 [] "loadDeletedRecords", h.2.1 [] [] "loadDeletedRecords" true,
    h.2.2 [] "loadRecords"⟩

/-! ## Filter expression precedence (claim C2) -/

/-- **C2, counterexample.** On the record `{a: 2, b: 0, c: 1}`, the
expression `.a == 1 and .b == 1 or .c == 1` compiles to `false` although
`.c == 1` alone compiles to `true` — under the claimed grouping
`(A and B) or C` the result would have to be `true` whenever `C` is, so
`compile` does not group `A and B or C` as `(A and B) or C`. -/
theorem parseFilter_or_lowest_counterexample :
    applyFilter ".a == 1 and .b == 1 or .c == 1"
        (Jv.jobj [("a", .jnum 2), ("b", .jnum 0), ("c", .jnum 1)])
      = some false ∧
    applyFilter ".a == 1"
        (Jv.jobj [("a", .jnum 2), ("b", .jnum 0), ("c", .jnum 1)])
      = some false ∧
    applyFilter ".b == 1"
        (Jv.jobj [("a", .jnum 2), ("b", .jnum 0), ("c", .jnum 1)])
      = some false ∧
    applyFilter ".c == 1"
        (Jv.jobj [("a", .jnum 2), ("b", .jnum 0), ("c", .jnum 1)])
      = some true :=
  ⟨rfl, rfl, rfl, rfl⟩

/-- **C2** (amended). In the filter language `and` has the lowest precedence
and `or` binds tighter (`parseCondition` splits on ` and ` first, then each
part on ` or `): for every record, `A and B or C` evaluates as
`A and (B or C)`, shown here on comparison atoms over the fields
`a`, `b`, `c`. -/
theorem parseFilter_and_lowest_precedence (r : Jv) :
    applyFilter ".a == 1 and .b == 1 or .c == 1" r
      = some (jsStrictEq (r.get "a") (.jnum 1)
          && (jsStrictEq (r.get "b") (.jnum 1)
            || jsStrictEq (r.get "c") (.jnum 1))) := by
  have h : applyFilter ".a == 1 and .b == 1 or .c == 1" r
      = some (jsStrictEq (r.get "a") (.jnum 1)
          && ((jsStrictEq (r.get "b") (.jnum 1)
            || (jsStrictEq (r.get "c") (.jnum 1) || false)) && true)) := rfl
  rw [h]
  simp only [Bool.or_false, Bool.and_true]

/-! ## Sort stability and timestamp comparison (claim C4) -/

theorem sublist_insertSorted (cmp : (Jv × Nat) → (Jv × Nat) → Int)
    (x : Jv × Nat) : ∀ l : List (Jv × Nat), l.Sublist (insertSorted cmp x l)
  | [] => by simp [insertSorted]
  | y :: ys => by
    simp only [insertSorted]
    split
    · exact List.sublist_cons_self x (y :: ys)
    · exact List.Sublist.cons₂ y (sublist_insertSorted cmp x ys)

theorem insertSorted_mem_self (cmp : (Jv × Nat) → (Jv × Nat) → Int)
    (x : Jv × Nat) : ∀ l : List (Jv × Nat), x ∈ insertSorted cmp x l
  | [] => by simp [insertSorted]
  | y :: ys => by
    simp only [insertSorted]
    split
    · simp
    · simp [insertSorted_mem_self cmp x ys]

theorem mem_sortByCmp (cmp : (Jv × Nat) → (Jv × Nat) → Int) :
    ∀ {l : List (Jv × Nat)} {a : Jv × Nat}, a ∈ l → a ∈ sortByCmp cmp l := by
  intro l
  induction l with
  | nil => intro a h; simp at h
  | cons y ys ih =>
    intro a h
    rcases List.mem_cons.mp h with he | hm
    · subst he
      exact insertSorted_mem_self cmp a (sortByCmp cmp ys)
    · exact (sublist_insertSorted cmp y (sortByCmp cmp ys)).mem (ih hm)

theorem pair_sublist_insertSorted (cmp : (Jv × Nat) → (Jv × Nat) → Int)
    {x y : Jv × Nat} (hxy : cmp x y < 0) :
    ∀ l : List (Jv × Nat), y ∈ l → [x, y].Sublist (insertSorted cmp x l)
  | z :: zs, hmem => by
    simp only [insertSorted]
    split
    · exact List.Sublist.cons₂ x (List.singleton_sublist.mpr hmem)
    · rename_i hc
      rcases List.mem_cons.mp hmem with he | hm
      · subst he
        exact absurd hxy hc
      · exact List.Sublist.cons z (pair_sublist_insertSorted cmp hxy zs hm)

theorem pair_sublist_sortByCmp (cmp : (Jv × Nat) → (Jv × Nat) → Int)
    {a b : Jv × Nat} (hab : cmp a b < 0) :
    ∀ {l : List (Jv × Nat)}, [a, b].Sublist l → [a, b].Sublist (sortByCmp cmp l) := by
  intro l
  induction l with
  | nil => intro h; simp at h
  | cons z zs ih =>
    intro h
    cases h with
    | cons _ h2 =>
      exact (ih h2).trans (sublist_insertSorted cmp z (sortByCmp cmp zs))
    | cons₂ _ h2 =>
      exact pair_sublist_insertSorted cmp hab (sortByCmp cmp zs)
        (mem_sortByCmp cmp (List.singleton_sublist.mp h2))

theorem withIdx_mem_of_getElem :
    ∀ (l : List Jv) (s i : Nat) (r : Jv), l[i]? = some r →
      (r, s + i) ∈ withIdx l s
  | x :: xs, s, 0, r, h => by
    have : x = r := by simpa using h
    subst this
    simp [withIdx]
  | x :: xs, s, i + 1, r, h => by
    have h' : xs[i]? = some r := by simpa using h
    have := withIdx_mem_of_getElem xs (s + 1) i r h'
    rw [show s + 1 + i = s + (i + 1) from by omega] at this
    simp [withIdx, this]

theorem pair_sublist_withIdx :
    ∀ (l : List Jv) (s i j : Nat) (ri rj : Jv), i < j →
      l[i]? = some ri → l[j]? = some rj →
      [(ri, s + i), (rj, s + j)].Sublist (withIdx l s)
  | x :: xs, s, 0, j, ri, rj, hij, hi, hj => by
    have hx : x = ri := by simpa using hi
    subst hx
    match j, hij with
    | m + 1, _ =>
      have hj' : xs[m]? = some rj := by simpa using hj
      have hmem := withIdx_mem_of_getElem xs (s + 1) m rj hj'
      rw [show s + 1 + m = s + (m + 1) from by omega] at hmem
      rw [show s + 0 = s from by omega]
      exact List.Sublist.cons₂ (x, s) (List.singleton_sublist.mpr hmem)
  | x :: xs, s, i + 1, j, ri, rj, hij, hi, hj => by
    match j, hij with
    | m + 1, hij =>
      have hi' : xs[i]? = some ri := by simpa using hi
      have hj' : xs[m]? = some rj := by simpa using hj
      have := pair_sublist_withIdx xs (s + 1) i m ri rj (by omega) hi' hj'
      rw [show s + 1 + i = s + (i + 1) from by omega,
        show s + 1 + m = s + (m + 1) from by omega] at this
      exact List.Sublist.cons (x, s) this

/-- **C4, counterexample.** Sorting ascending by `created` with a record
whose `_created` does not parse (`"!!!"`) and one whose `_created` is a
valid timestamp: the comparison falls back to string comparison
(`localeCompare`, here instantiated with lexicographic order, which agrees
with the real collation on these strings), and the unparseable record sorts
*before* the valid one — not after all valid values as claimed. -/
theorem sortRecords_unparseable_counterexample :
    sortRecords
      (fun v => match v with
        | .jstr "2020-01-01T00:00:00.000Z" => some 1577836800000
        | _ => none)
      (fun a b => match a, b with
        | .jstr x, .jstr y => lexCmpChars x.data y.data
        | _, _ => 0)
      [Jv.jobj [("_id", .jstr "valid"),
        ("_created", .jstr "2020-01-01T00:00:00.000Z")],
       Jv.jobj [("_id", .jstr "junk"), ("_created", .jstr "!!!")]]
      "_created" .asc
    = [Jv.jobj [("_id", .jstr "junk"), ("_created", .jstr "!!!")],
       Jv.jobj [("_id", .jstr "valid"),
         ("_created", .jstr "2020-01-01T00:00:00.000Z")]] ∧
    (fun v : Jv => match v with
        | .jstr "2020-01-01T00:00:00.000Z" => some (1577836800000 : Int)
        | _ => none) (.jstr "!!!") = none ∧
    (fun v : Jv => match v with
        | .jstr "2020-01-01T00:00:00.000Z" => some (1577836800000 : Int)
        | _ => none) (.jstr "2020-01-01T00:00:00.000Z")
      = some 1577836800000 :=
  ⟨rfl, rfl, rfl⟩

/-- **C4** (amended). `sortRecords` is stable — two records that compare
equal on the sort field keep their original relative order via the
original-index tiebreak, for every comparator instantiation and order — and
on the timestamp fields (`created`/`updated`/`deleted` aliases) values are
compared as parsed timestamps whenever both sides parse, with missing/null
values sorting after every non-null value; a non-null value that fails to
parse falls back to the generic (string) comparison instead of sorting
after all valid timestamps. -/
theorem sortRecords_stability_and_timestamps (dateParse : Jv → Option Int)
    (localeCompare : Jv → Jv → Int) :
    (∀ (field : String) (av bv : Jv) (ta tb : Int),
      (field = "_created" ∨ field = "_updated" ∨ field = "_deleted") →
      jsNullish (some av) = false → jsNullish (some bv) = false →
      dateParse av = some ta → dateParse bv = some tb →
      compareValues dateParse localeCompare field (some av) (some bv)
        = ta - tb) ∧
    (∀ (field : String) (b : Option Jv), jsNullish b = false →
      compareValues dateParse localeCompare field none b = 1 ∧
      compareValues dateParse localeCompare field b none = -1) ∧
    (∀ (records : List Jv) (field : String) (ord : SortOrder) (i j : Nat)
        (ri rj : Jv), i < j →
      records[i]? = some ri → records[j]? = some rj →
      compareValues dateParse localeCompare field (ri.get field)
          (rj.get field) = 0 →
      [ri, rj].Sublist (sortRecords dateParse localeCompare records field ord)) := by
  refine ⟨?_, ?_, ?_⟩
  · intro field av bv ta tb hf hna hnb hta htb
    simp [compareValues, hna, hnb, hf, hta, htb]
  · intro field b hb
    constructor
    · simp [compareValues, hb,
        show jsNullish (none : Option Jv) = true from rfl]
    · rcases b with _ | bv
      · simp [jsNullish] at hb
      · simp [compareValues, hb,
          show jsNullish (none : Option Jv) = true from rfl]
  · intro records field ord i j ri rj hij hi hj hcmp0
    have hpair := pair_sublist_withIdx records 0 i j ri rj hij hi hj
    simp only [Nat.zero_add] at hpair
    have hclt : sortComparator dateParse localeCompare field ord
        (ri, i) (rj, j) < 0 := by
      simp only [sortComparator, hcmp0]
      simp
      omega
    have hs := pair_sublist_sortByCmp _ hclt hpair
    have hmap := hs.map Prod.fst
    simpa [sortRecords, sortRecordsIdx] using hmap

/-- Witness for `sortRecords_stability_and_timestamps` at a concrete date
parser, lexicographic collation, and a two-record tie on `_created`. -/
theorem sortRecords_stability_witness :
    compareValues
        (fun v => match v with
          | .jstr "A" => some 5
          | .jstr "B" => some 9
          | _ => none)
        (fun _ _ => 0) "_created"
        (some (.jstr "A")) (some (.jstr "B")) = 5 - 9 ∧
    [Jv.jobj [("_created", .jstr "A"), ("_id", .jstr "1")],
     Jv.jobj [("_created", .jstr "A"), ("_id", .jstr "2")]].Sublist
      (sortRecords
        (fun v => match v with
          | .jstr "A" => some 5
          | .jstr "B" => some 9
          | _ => none)
        (fun _ _ => 0)
        [Jv.jobj [("_created", .jstr "A"), ("_id", .jstr "1")],
         Jv.jobj [("_created", .jstr "A"), ("_id", .jstr "2")]]
        "_created" .asc) := by
  have h := sortRecords_stability_and_timestamps
    (fun v => match v with
      | .jstr "A" => some 5
      | .jstr "B" => some 9
      | _ => none)
    (fun _ _ => 0)
  refine ⟨h.1 "_created" (.jstr "A") (.jstr "B") 5 9 (Or.inl rfl) rfl rfl rfl rfl,
    h.2.2 [Jv.jobj [("_created", .jstr "A"), ("_id", .jstr "1")],
      Jv.jobj [("_created", .jstr "A"), ("_id", .jstr "2")]]
      "_created" .asc 0 1
      (Jv.jobj [("_created", .jstr "A"), ("_id", .jstr "1")])
      (Jv.jobj [("_created", .jstr "A"), ("_id", .jstr "2")])
      (by omega) rfl rfl rfl⟩

/-- C5: with an existing, nonempty active log and an invalid order string,
the list pipeline does raise the invalid-input error, but its event trace
already contains the active-log read when the error is produced — the log
is loaded (list.ts line 20) long before `normalizeSortOrder` runs (line
68), refuting "before any file I/O". -/
theorem listQueryModel_read_before_invalid_order_counterexample :
    listQueryModel (fun _ => none) (fun _ _ => 0) 0
        ⟨true, true, writeRecordsContent [Jv.jobj [("_id", Jv.jstr "a")]],
          false, []⟩
        ⟨none, false, none, some "up", none, none, none, none⟩ =
      ([ReadEvent.readActive], .error (.invalidInput "Invalid order")) ∧
    ([ReadEvent.readActive] : List ReadEvent) ≠ [] := by
  refine ⟨rfl, by decide⟩

/-- C5 (amended): an invalid order string, or an invalid limit string when
the order is valid, makes the list pipeline fail with the corresponding
invalid-input error — but only after the active log has been read: the
event trace of the failing run is exactly `[readActive]`. -/
theorem listQueryModel_invalid_order_limit_after_read
    (dateParse : Jv → Option Int) (localeCompare : Jv → Jv → Int)
    (nowMs : Int) (env : ListEnv) (opts : ListOptions) (rs : List Jv)
    (c u d : Option Int) (e : SdbErr)
    (hschema : env.schemaExists = true)
    (hload : loadRecords env.activeExists env.activeContent = .ok rs)
    (hfilter : opts.filter = none)
    (hc : optDuration opts.createdWithin = .ok c)
    (hu : optDuration opts.updatedWithin = .ok u)
    (hd : optDuration opts.deletedWithin = .ok d)
    (hinc : opts.includeDeleted = false)
    (herr : normalizeSortOrder opts.order = .error e ∨
      (∃ o, normalizeSortOrder opts.order = .ok o) ∧
        parseLimit opts.limit = .error e) :
    listQueryModel dateParse localeCompare nowMs env opts =
      ([ReadEvent.readActive], .error e) := by
  rcases herr with herr | ⟨⟨o, ho⟩, herr⟩
  · simp [listQueryModel, hschema, hload, hfilter, hc, hu, hd, hinc,
      applyContentFilter, herr]
  · simp [listQueryModel, hschema, hload, hfilter, hc, hu, hd, hinc,
      applyContentFilter, ho, herr]

theorem listQueryModel_invalid_order_limit_after_read_witness :
    listQueryModel (fun _ => none) (fun _ _ => 0) 0
        ⟨true, false, [], false, []⟩
        ⟨none, false, none, none, some "2.5", none, none, none⟩ =
      ([ReadEvent.readActive], .error (.invalidInput "Invalid limit")) :=
  listQueryModel_invalid_order_limit_after_read _ _ _ _ _ [] none none none _
    rfl rfl rfl rfl rfl rfl rfl (Or.inr ⟨⟨.asc, rfl⟩, rfl⟩)

/-- C6: an existing lock file that `JSON.parse` cannot parse is indeed
unlinked, but the loop then sleeps the retry backoff before the next
iteration (fs.ts lines 224-236) — it does not retry immediately as it does
for a stale lock. -/
theorem acquireLockStep_unparseable_counterexample :
    acquireLockStep (fun _ => none) 0 0 120000 120000 true ['x'] =
      .unlinkRetrySleep ∧
    LockAction.unlinkRetrySleep ≠ .unlinkRetryNow := by
  exact ⟨rfl, by simp⟩

/-- C6 (amended): a parseable lock whose age exceeds the staleness timeout
is deleted and the loop retries immediately with no sleep; an existing but
unparseable lock is also deleted, but the loop sleeps the retry backoff
before its next attempt (when the wait budget is not yet exhausted). -/
theorem acquireLockStep_stale_and_unparseable (dateTs : Option Jv → Option Int)
    (nowMs waitedMs maxWaitMs lockTimeoutMs : Int) (content : List Char) :
    (∀ lock t, jsonParseLine content = some lock → lock ≠ .jnull →
      dateTs (lock.get "timestamp") = some t → nowMs - t > lockTimeoutMs →
      acquireLockStep dateTs nowMs waitedMs maxWaitMs lockTimeoutMs true
        content = .unlinkRetryNow) ∧
    (jsonParseLine content = none → waitedMs < maxWaitMs →
      acquireLockStep dateTs nowMs waitedMs maxWaitMs lockTimeoutMs true
        content = .unlinkRetrySleep) := by
  constructor
  · intro lock t hparse hnull hts hage
    match lock, hnull with
    | .jbool b, _ => simp [acquireLockStep, hparse, hts, hage]
    | .jnum n, _ => simp [acquireLockStep, hparse, hts, hage]
    | .jstr s, _ => simp [acquireLockStep, hparse, hts, hage]
    | .jarr es, _ => simp [acquireLockStep, hparse, hts, hage]
    | .jobj ms, _ => simp [acquireLockStep, hparse, hts, hage]
  · intro hparse hwait
    simp [acquireLockStep, hparse, not_le.mpr hwait]

theorem acquireLockStep_stale_and_unparseable_witness :
    acquireLockStep (fun _ => some 0) 120001 0 120000 120000 true
        (jsonStringify (Jv.jobj [("timestamp", Jv.jstr "t")])) =
      .unlinkRetryNow ∧
    acquireLockStep (fun _ => some 0) 120001 0 120000 120000 true ['x'] =
      .unlinkRetrySleep :=
  ⟨(acquireLockStep_stale_and_unparseable (fun _ => some 0) 120001 0 120000
      120000 (jsonStringify (Jv.jobj [("timestamp", Jv.jstr "t")]))).1
      (Jv.jobj [("timestamp", Jv.jstr "t")]) 0 rfl (by simp) rfl (by decide),
   (acquireLockStep_stale_and_unparseable (fun _ => some 0) 120001 0 120000
      120000 ['x']).2 rfl (by decide)⟩

theorem mem_upsert (p : String × Jv) (k : String) (v : Jv) :
    ∀ l : List (String × Jv), p ∈ upsert k v l →
      (p.1 = k ∧ p.2 = v) ∨ p ∈ l
  | [], h => by
      rw [upsert] at h
      exact Or.inl (by simp [List.mem_singleton.mp h])
  | (k', v') :: rest, h => by
      rw [upsert] at h
      by_cases hk : k' = k
      · rw [if_pos hk] at h
        rcases List.mem_cons.mp h with h | h
        · exact Or.inl (by simp [h, hk])
        · exact Or.inr (List.mem_cons_of_mem _ h)
      · rw [if_neg hk] at h
        rcases List.mem_cons.mp h with h | h
        · exact Or.inr (by simp [h])
        · rcases mem_upsert p k v rest h with h' | h'
          · exact Or.inl h'
          · exact Or.inr (List.mem_cons_of_mem _ h')

theorem assocFind_some_mem (s : String) (v : Jv) :
    ∀ l : List (String × Jv), assocFind s l = some v → (s, v) ∈ l
  | [], h => by rw [assocFind] at h; exact absurd h (by simp)
  | (k, v') :: rest, h => by
      rw [assocFind] at h
      by_cases hk : k = s
      · rw [if_pos hk] at h
        have hv : v' = v := Option.some.inj h
        subst hk; subst hv
        exact List.mem_cons_self _ _
      · rw [if_neg hk] at h
        exact List.mem_cons_of_mem _ (assocFind_some_mem s v rest h)

/-- A successful pass of the update loop only ever puts target ids in the
updated map, and maps each to the spread-merge of the first matching
current record. -/
theorem updateLoop_ok_um (V : List (String × Jv) → Bool) (now : String)
    (dIds lDel : List (Option Jv)) (cur : List Jv)
    (upd : List (String × Jv)) (ids0 : List String) :
    ∀ (ids : List String) (dl ml : List String) (um : List (String × Jv))
      (out : List String × List String × List (String × Jv)),
      (∀ id ∈ ids, id ∈ ids0) →
      (∀ p ∈ um, p.1 ∈ ids0 ∧ ∃ ex,
        cur.find? (fun r => idEq (Jv.get r "_id") p.1) = some ex ∧
        p.2 = buildNextRecord ex upd now) →
      updateLoop V now dIds lDel cur upd ids (dl, ml, um) = .ok out →
      ∀ p ∈ out.2.2, p.1 ∈ ids0 ∧ ∃ ex,
        cur.find? (fun r => idEq (Jv.get r "_id") p.1) = some ex ∧
        p.2 = buildNextRecord ex upd now := by
  intro ids
  induction ids with
  | nil =>
    intro dl ml um out hsub hum h
    rw [updateLoop] at h
    obtain rfl := Except.ok.inj h
    exact hum
  | cons id rest ih =>
    intro dl ml um out hsub hum h
    rw [updateLoop] at h
    split at h
    · exact ih (dl ++ [id]) ml um out
        (fun i hi => hsub i (List.mem_cons_of_mem _ hi)) hum h
    · split at h
      · exact ih dl (ml ++ [id]) um out
          (fun i hi => hsub i (List.mem_cons_of_mem _ hi)) hum h
      · rename_i existing hfind
        split at h
        · refine ih dl ml _ out
            (fun i hi => hsub i (List.mem_cons_of_mem _ hi)) ?_ h
          intro p hp
          rcases mem_upsert p id _ um hp with ⟨h1, h2⟩ | hp'
          · refine ⟨h1 ▸ hsub id (List.mem_cons_self id rest), existing, ?_, h2⟩
            rw [h1]
            exact hfind
          · exact hum p hp'
        · exact absurd h (by simp)

/-- A record none of whose target ids match its `_id` passes through the
rewrite untouched. -/
theorem replaceById_untargeted (um : List (String × Jv)) (r : Jv)
    (h : ∀ s v, (s, v) ∈ um → idEq (Jv.get r "_id") s = false) :
    replaceById um r = r := by
  unfold replaceById
  split
  next s heq =>
    cases hfind : assocFind s um with
    | none => rfl
    | some v =>
      have hf := h s v (assocFind_some_mem s v um hfind)
      rw [heq] at hf
      simp [idEq] at hf
  next => rfl

/-- C10: a legacy record whose `_deleted` field is present but falsy (here
the empty string) is NOT removed by a successful update's rewrite — the
split in update.ts lines 133-135 is by truthiness of `_deleted`, not by
presence of the field. -/
theorem updateLocked_falsy_deleted_counterexample :
    updateLocked (fun _ => true) "T" []
        [Jv.jobj [("_id", Jv.jstr "a")],
         Jv.jobj [("_id", Jv.jstr "b"), ("_deleted", Jv.jstr "")]]
        ["a"] [("x", Jv.jnum 1)] =
      .ok [Jv.jobj [("_id", Jv.jstr "a"), ("x", Jv.jnum 1),
            ("_updated", Jv.jstr "T")],
           Jv.jobj [("_id", Jv.jstr "b"), ("_deleted", Jv.jstr "")]] ∧
    Jv.get (Jv.jobj [("_id", Jv.jstr "b"), ("_deleted", Jv.jstr "")])
        "_deleted" = some (Jv.jstr "") :=
  ⟨rfl, rfl⟩

/-- C10 (amended): on a successful non-dry-run update, the rewritten
active log is exactly the records of the old active log whose `_deleted`
is falsy, in their original order, where a record whose `_id` matches a
target id is replaced by the spread-merge update of the first such record
and every untargeted record passes through unchanged; records with truthy
`_deleted` are silently dropped by the rewrite. -/
theorem updateLocked_nextRecords (V : List (String × Jv) → Bool)
    (now : String) (del all : List Jv) (ids : List String)
    (upd : List (String × Jv)) (result : List Jv)
    (h : updateLocked V now del all ids upd = .ok result) :
    ∃ um : List (String × Jv),
      (∀ p ∈ um, p.1 ∈ ids ∧ ∃ ex,
        (all.filter (fun r => !(jsTruthy (Jv.get r "_deleted")))).find?
          (fun r => idEq (Jv.get r "_id") p.1) = some ex ∧
        p.2 = buildNextRecord ex upd now) ∧
      result = (all.filter (fun r => !(jsTruthy (Jv.get r "_deleted")))).map
        (replaceById um) ∧
      ∀ (i : Nat) (r : Jv),
        (all.filter (fun r => !(jsTruthy (Jv.get r "_deleted"))))[i]? =
          some r →
        (∀ id ∈ ids, idEq (Jv.get r "_id") id = false) →
        result[i]? = some r := by
  simp only [updateLocked] at h
  split at h
  · exact absurd h (by simp)
  · rename_i dl ml um heq
    split at h
    · exact absurd h (by simp)
    split at h
    · exact absurd h (by simp)
    have hum : ∀ p ∈ um, p.1 ∈ ids ∧ ∃ ex,
        (all.filter (fun r => !(jsTruthy (Jv.get r "_deleted")))).find?
          (fun r => idEq (Jv.get r "_id") p.1) = some ex ∧
        p.2 = buildNextRecord ex upd now :=
      updateLoop_ok_um V now _ _ _ upd ids ids [] [] [] (dl, ml, um)
        (fun i hi => hi) (by simp) heq
    have hmap : result = (all.filter
        (fun r => !(jsTruthy (Jv.get r "_deleted")))).map (replaceById um) :=
      (Except.ok.inj h).symm
    refine ⟨um, hum, hmap, ?_⟩
    intro i r hi hunt
    rw [hmap, List.getElem?_map, hi, Option.map_some']
    exact congrArg some (replaceById_untargeted um r
      (fun s v hm => hunt s (hum (s, v) hm).1))

theorem updateLocked_nextRecords_witness :
    ∃ um : List (String × Jv),
      (∀ p ∈ um, p.1 ∈ ["a"] ∧ ∃ ex,
        ([Jv.jobj [("_id", Jv.jstr "a")],
          Jv.jobj [("_id", Jv.jstr "b"), ("_deleted", Jv.jbool true)]].filter
            (fun r => !(jsTruthy (Jv.get r "_deleted")))).find?
          (fun r => idEq (Jv.get r "_id") p.1) = some ex ∧
        p.2 = buildNextRecord ex [("y", Jv.jnum 2)] "T") ∧
      [Jv.jobj [("_id", Jv.jstr "a"), ("y", Jv.jnum 2),
          ("_updated", Jv.jstr "T")]] =
        ([Jv.jobj [("_id", Jv.jstr "a")],
          Jv.jobj [("_id", Jv.jstr "b"), ("_deleted", Jv.jbool true)]].filter
            (fun r => !(jsTruthy (Jv.get r "_deleted")))).map
          (replaceById um) ∧
      ∀ (i : Nat) (r : Jv),
        ([Jv.jobj [("_id", Jv.jstr "a")],
          Jv.jobj [("_id", Jv.jstr "b"), ("_deleted", Jv.jbool true)]].filter
            (fun r => !(jsTruthy (Jv.get r "_deleted"))))[i]? = some r →
        (∀ id ∈ ["a"], idEq (Jv.get r "_id") id = false) →
        [Jv.jobj [("_id", Jv.jstr "a"), ("y", Jv.jnum 2),
          ("_updated", Jv.jstr "T")]][i]? = some r :=
  updateLocked_nextRecords (fun _ => true) "T" []
    [Jv.jobj [("_id", Jv.jstr "a")],
     Jv.jobj [("_id", Jv.jstr "b"), ("_deleted", Jv.jbool true)]]
    ["a"] [("y", Jv.jnum 2)]
    [Jv.jobj [("_id", Jv.jstr "a"), ("y", Jv.jnum 2),
      ("_updated", Jv.jstr "T")]] rfl

/-- One step preserves the lock invariant. -/
theorem lockInv_step (s s' : LockSys) (hinv : lockInv s)
    (hstep : sysStep s s') : lockInv s' := by
  cases hstep with
  | stepA =>
    obtain ⟨l, a, b⟩ := s
    revert hinv
    cases l <;> cases a <;> cases b <;> decide
  | stepB =>
    obtain ⟨l, a, b⟩ := s
    revert hinv
    cases l <;> cases a <;> cases b <;> decide

/-- C9: in every interleaving of two concurrent `acquireLock` runs from an
unlocked start, at most one process ever observes lock-file absence
followed by a successful exclusive create — the atomic `wx` create fails
with `EEXIST` for the loser, which re-enters the wait loop — so the two
processes never both hold the lock. -/
theorem acquireLock_mutual_exclusion (s : LockSys)
    (hreach : Relation.ReflTransGen sysStep lockInit s) :
    ¬(s.pcA = .holding ∧ s.pcB = .holding) := by
  have hinv : lockInv s := by
    induction hreach with
    | refl => decide
    | tail hr hstep ih => exact lockInv_step _ _ ih hstep
  exact hinv.2.2

theorem acquireLock_mutual_exclusion_witness :
    ¬((⟨true, .holding, .waiting⟩ : LockSys).pcA = .holding ∧
      (⟨true, .holding, .waiting⟩ : LockSys).pcB = .holding) :=
  acquireLock_mutual_exclusion ⟨true, .holding, .waiting⟩
    (Relation.ReflTransGen.tail
      (Relation.ReflTransGen.tail
        (Relation.ReflTransGen.tail Relation.ReflTransGen.refl
          (sysStep.stepA lockInit))
        (sysStep.stepA ⟨false, .creating, .start⟩))
      (sysStep.stepB ⟨true, .holding, .start⟩))

end Sdb
